import Mathlib

/-!
A shallow embedding of the morphogen inflection-prediction pipeline
(`predict.py`, `struct_train.py`) together with theorems checking the
specification's claims against it.  Floating-point log-probabilities are
modelled by exact real numbers; the IEEE special values that
`predict.py` manufactures (`float('-inf')` for unseen tags, NaN from
`-inf - -inf`) are modelled by the `XFloat` carrier.  The sklearn
vectorizer/classifier pairs are external collaborators and appear only
through their contract: an ordered class list and one log-probability row
per feature vector.
-/

namespace Morphogen

/-- A feature vector as the pipeline passes it around: the Python dict of
(feature name, feature value) pairs; values are opaque to the core. -/
abbrev Feat := List (String × String)

/-- Python dict assignment `d[k] = v` on an insertion-ordered association
list: replace the first binding of `k` in place, or append a fresh one. -/
def dictAssign {κ ν : Type} [DecidableEq κ] : List (κ × ν) → κ → ν → List (κ × ν)
  | [], k, v => [(k, v)]
  | p :: rest, k, v => if p.1 = k then (k, v) :: rest else p :: dictAssign rest k v

/-- Python `d[k]` / `d.get(k)` on an association list; the dicts the
pipeline builds have distinct keys, so the first binding is the binding. -/
def dlookup {κ ν : Type} [DecidableEq κ] (d : List (κ × ν)) (k : κ) : Option ν :=
  (d.find? (fun p => decide (p.1 = k))).map (fun p => p.2)

/-- Python `d.get(k, dflt)`. -/
def dlookupD {κ ν : Type} [DecidableEq κ] (d : List (κ × ν)) (k : κ) (dflt : ν) : ν :=
  (dlookup d k).getD dflt

/-- Python `dict(pairs)`: fold the pairs through dict assignment. -/
def pyDict {κ ν : Type} [DecidableEq κ] (l : List (κ × ν)) : List (κ × ν) :=
  l.foldl (fun d p => dictAssign d p.1 p.2) []

/-- A morphological tag: one-character category code plus attribute string
(the spec's tag-string encoding, split at the category code). -/
structure Tag where
  cat : Char
  attrs : String
deriving DecidableEq

/-- A target-side word as the pipeline sees it, the `(token, lemma, tag)`
triple of the corpus (`lem` is the lemma; `lemma` is a Lean keyword). -/
structure Word where
  inflection : String
  lem : String
  tag : Tag
deriving DecidableEq

/-- IEEE-754 score values over exact reals: finite, the two infinities, and
NaN. -/
inductive XFloat : Type where
  | nan : XFloat
  | ninf : XFloat
  | pinf : XFloat
  | fin : ℝ → XFloat

namespace XFloat

/-- IEEE subtraction, as Python evaluates `score - z`. -/
noncomputable def sub : XFloat → XFloat → XFloat
  | nan, _ => nan
  | _, nan => nan
  | ninf, ninf => nan
  | ninf, _ => ninf
  | pinf, pinf => nan
  | pinf, _ => pinf
  | fin _, ninf => pinf
  | fin _, pinf => ninf
  | fin a, fin b => fin (a - b)

/-- IEEE addition, as the evaluator's `stats[category][3] += gold_score`. -/
noncomputable def add : XFloat → XFloat → XFloat
  | nan, _ => nan
  | _, nan => nan
  | ninf, pinf => nan
  | pinf, ninf => nan
  | ninf, _ => ninf
  | _, ninf => ninf
  | pinf, _ => pinf
  | _, pinf => pinf
  | fin a, fin b => fin (a + b)

/-- IEEE negation. -/
noncomputable def neg : XFloat → XFloat
  | nan => nan
  | ninf => pinf
  | pinf => ninf
  | fin a => fin (-a)

/-- IEEE division by a (positive) instance count. -/
noncomputable def divNat : XFloat → ℕ → XFloat
  | nan, _ => nan
  | ninf, _ => ninf
  | pinf, _ => pinf
  | fin a, m => fin (a / (m : ℝ))

/-- `math.exp` / elementwise exponential on IEEE values. -/
noncomputable def exp : XFloat → XFloat
  | nan => nan
  | ninf => fin 0
  | pinf => pinf
  | fin a => fin (Real.exp a)

/-- `numpy.logaddexp` on a pair of IEEE values. -/
noncomputable def logaddexp : XFloat → XFloat → XFloat
  | nan, _ => nan
  | _, nan => nan
  | ninf, y => y
  | x, ninf => x
  | pinf, _ => pinf
  | _, pinf => pinf
  | fin a, fin b => fin (Real.log (Real.exp a + Real.exp b))

/-- The scores `SimpleModel.score_all` builds before normalisation are
finite or −inf, never NaN or +inf. -/
def IsFN : XFloat → Prop
  | fin _ => True
  | ninf => True
  | pinf => False
  | nan => False

/-- The real number `Real.exp` would give on a finite-or-−inf score
(0 at −inf); junk value 0 on NaN and +inf. -/
noncomputable def sExp : XFloat → ℝ
  | fin a => Real.exp a
  | _ => 0

end XFloat

/-- `numpy.logaddexp.reduce` on an array of IEEE values: a left fold seeded
with the first element (empty arrays are outside numpy's contract;
modelled as NaN). -/
noncomputable def logaddexpReduce : List XFloat → XFloat
  | [] => XFloat.nan
  | x :: xs => xs.foldl XFloat.logaddexp x

/-- `numpy.logaddexp.reduce` on an array of plain finite floats. -/
noncomputable def logaddexpReduceR : List ℝ → ℝ
  | [] => 0
  | x :: xs => xs.foldl (fun a b => Real.log (Real.exp a + Real.exp b)) x

section XFloatLemmas

open XFloat

theorem sExp_nonneg (x : XFloat) : 0 ≤ x.sExp := by
  cases x <;> simp [XFloat.sExp]
  exact (Real.exp_pos _).le

theorem isFN_logaddexp {x y : XFloat} (hx : IsFN x) (hy : IsFN y) :
    IsFN (logaddexp x y) := by
  cases x <;> cases y <;> simp_all [IsFN, logaddexp]

theorem sExp_logaddexp {x y : XFloat} (hx : IsFN x) (hy : IsFN y) :
    (logaddexp x y).sExp = x.sExp + y.sExp := by
  cases x <;> cases y <;> simp_all [IsFN, logaddexp, XFloat.sExp]
  exact Real.exp_log (by positivity)

theorem logaddexp_eq_ninf_iff {x y : XFloat} (hx : IsFN x) (hy : IsFN y) :
    logaddexp x y = ninf ↔ x = ninf ∧ y = ninf := by
  cases x <;> cases y <;> simp_all [IsFN, logaddexp]

theorem foldl_logaddexp_isFN {l : List XFloat} {x : XFloat}
    (hx : IsFN x) (hl : ∀ y ∈ l, IsFN y) : IsFN (l.foldl logaddexp x) := by
  induction l generalizing x with
  | nil => exact hx
  | cons y ys ih =>
    have hy : IsFN y := hl y (by simp)
    exact ih (isFN_logaddexp hx hy) (fun z hz => hl z (by simp [hz]))

theorem foldl_logaddexp_sExp {l : List XFloat} {x : XFloat}
    (hx : IsFN x) (hl : ∀ y ∈ l, IsFN y) :
    (l.foldl logaddexp x).sExp = x.sExp + (l.map sExp).sum := by
  induction l generalizing x with
  | nil => simp
  | cons y ys ih =>
    have hy : IsFN y := hl y (by simp)
    have := ih (isFN_logaddexp hx hy) (fun z hz => hl z (by simp [hz]))
    simp only [List.foldl_cons, List.map_cons, List.sum_cons] at this ⊢
    rw [this, sExp_logaddexp hx hy, add_assoc]

theorem foldl_logaddexp_eq_ninf_iff {l : List XFloat} {x : XFloat}
    (hx : IsFN x) (hl : ∀ y ∈ l, IsFN y) :
    l.foldl logaddexp x = ninf ↔ x = ninf ∧ ∀ y ∈ l, y = ninf := by
  induction l generalizing x with
  | nil => simp
  | cons y ys ih =>
    have hy : IsFN y := hl y (by simp)
    rw [List.foldl_cons, ih (isFN_logaddexp hx hy) (fun z hz => hl z (by simp [hz])),
      logaddexp_eq_ninf_iff hx hy]
    constructor
    · rintro ⟨⟨h1, h2⟩, h3⟩
      exact ⟨h1, by simpa [h2] using h3⟩
    · rintro ⟨h1, h2⟩
      exact ⟨⟨h1, h2 y (by simp)⟩, fun z hz => h2 z (by simp [hz])⟩

theorem isFN_fin_of_ne_ninf {x : XFloat} (hx : IsFN x) (h : x ≠ ninf) :
    ∃ a, x = fin a := by
  cases x <;> simp_all [IsFN]

theorem sub_fin_sExp {s : XFloat} (hs : IsFN s) (z : ℝ) :
    (s.sub (fin z)).sExp = s.sExp / Real.exp z ∧ IsFN (s.sub (fin z)) := by
  cases s <;> simp_all [IsFN, XFloat.sub, XFloat.sExp, Real.exp_sub]

theorem foldl_add_fin_exp {l : List XFloat} (hl : ∀ y ∈ l, IsFN y) (t : ℝ) :
    (l.map XFloat.exp).foldl XFloat.add (fin t) = fin (t + (l.map sExp).sum) := by
  induction l generalizing t with
  | nil => simp
  | cons y ys ih =>
    have hy : IsFN y := hl y (by simp)
    have step : XFloat.add (fin t) y.exp = fin (t + y.sExp) := by
      cases y <;> simp_all [IsFN, XFloat.add, XFloat.exp, XFloat.sExp]
    simp only [List.map_cons, List.foldl_cons, List.sum_cons, step]
    rw [ih (fun z hz => hl z (by simp [hz]))]
    ring_nf

end XFloatLemmas

/-- The monolithic per-category model (`SimpleModel`, predict.py lines
22–25): one multiclass classifier over full attribute strings.  The
vectorizer and classifier are abstracted to their contract: an ordered
list of distinct classes and one log-probability row per feature vector
(`predict_log_proba(fvector)[0]`). -/
structure SimpleModel where
  classes : List String
  logProba : Feat → List ℝ

/-- `predictions.get(tag, float('-inf'))` (predict.py lines 29–30): the
classifier's log-probability for a full tag, −inf when the classifier
never saw the tag. -/
noncomputable def simpleLookup (M : SimpleModel) (features : Feat) (tag : String) :
    XFloat :=
  match dlookup (M.classes.zip (M.logProba features)) tag with
  | some v => XFloat.fin v
  | none => XFloat.ninf

/-- `SimpleModel.score_all` (predict.py lines 27–33): look every candidate
tag up in `dict(zip(classes_, predict_log_proba(...)[0]))` with default
`float('-inf')`, and normalise by the log-sum-exp of the scores. -/
noncomputable def SimpleModel.score_all (M : SimpleModel)
    (inflections : List (String × String)) (features : Feat) :
    List (XFloat × String × String) :=
  let scored := inflections.map (fun ti => (simpleLookup M features ti.1, ti.1, ti.2))
  let z := logaddexpReduce (scored.map (fun s => s.1))
  scored.map (fun s => (XFloat.sub s.1 z, s.2.1, s.2.2))

/-- One attribute-position classifier of the factorized model, abstracted
to its contract like the monolithic one (classes are single attribute
values, i.e. characters). -/
structure PosClf where
  classes : List Char
  logProba : Feat → List ℝ

/-- The factorized per-category model (`VectorModel`, predict.py lines
35–39): tag length of its category and one classifier-or-None per
attribute position (the spec's fixed-size array of optionals). -/
structure VectorModel where
  tagLength : ℕ
  clfs : List (Option PosClf)

/-- Python `tag.ljust(L, '-')` as a character list: right-pad to length
`L` with the inapplicable-attribute placeholder. -/
def ljust (s : String) (L : ℕ) : List Char :=
  s.data ++ List.replicate (L - s.data.length) '-'

/-- `score_vectors[i][v]` (predict.py lines 43–48): position `i`'s
log-probability for attribute value `v`.  A position whose classifier is
None contributes `defaultdict(int)`, i.e. 0 for every value; `none`
models an uncaught Python `KeyError` (a position outside `clfs`, or a
value the position classifier never saw, looked up in a plain dict). -/
def posScore (clfs : List (Option PosClf)) (features : Feat) (i : ℕ) (v : Char) :
    Option ℝ :=
  match clfs.get? i with
  | none => none
  | some none => some 0
  | some (some clf) => dlookup (clf.classes.zip (clf.logProba features)) v

/-- `score(tag)` (predict.py lines 49–50): sum over the enumerated padded
tag of the per-position log-probabilities. -/
noncomputable def scoreTag (V : VectorModel) (features : Feat) (tag : String) :
    Option ℝ :=
  ((ljust tag V.tagLength).enum.mapM
      (fun iv => posScore V.clfs features iv.1 iv.2)).map List.sum

/-- A single position's log-probability on its own: what position p's
classifier contributes for a candidate tag's (padded) value at p.  Used to
state the claim about factorized models with one active position. -/
def posVal (V : VectorModel) (features : Feat) (p : ℕ) (tag : String) :
    Option ℝ :=
  posScore V.clfs features p ((ljust tag V.tagLength).getD p '-')

/-- `VectorModel.score_all` (predict.py lines 41–53); `none` propagates a
`KeyError` raised while scoring any candidate. -/
noncomputable def VectorModel.score_all (V : VectorModel)
    (inflections : List (String × String)) (features : Feat) :
    Option (List (ℝ × String × String)) :=
  (inflections.mapM (fun ti =>
      (scoreTag V features ti.1).map (fun s => (s, ti.1, ti.2)))).map
    (fun scored =>
      let z := logaddexpReduceR (scored.map (fun s => s.1))
      scored.map (fun s => (s.1 - z, s.2.1, s.2.2)))

/-- A feature function (the external collaborators in `config.FEATURES`),
evaluated on (source sentence, lemma, aligned source position). -/
abbrev FeatureFn := List String → String → ℕ → List (String × String)

/-- `extract_instances` (predict.py lines 11–20): for every target position
whose category is extracted and which is aligned to exactly one source
position, emit the word together with the dict of all configured feature
functions' (name, value) pairs at that position. -/
def extract_instances (extractedTags : List Char) (featureFns : List FeatureFn)
    (source : List String) (target : List Word) (alignment : List (ℕ × ℕ)) :
    List (Word × Feat) :=
  target.enum.filterMap (fun iw =>
    if iw.2.tag.cat ∈ extractedTags then
      match (alignment.filter (fun kj => decide (kj.1 = iw.1))).map (fun kj => kj.2) with
      | [j] => some (iw.2, pyDict ((featureFns.map (fun ff => ff source iw.2.lem j)).flatten))
      | _ => none
    else none)

/-- The Instance Extractor as the specification words it (section 4.1): an
instance for position i exactly when its category is in the extracted set
and the number of alignment pairs for i is exactly one; the feature vector
is the union of the configured feature functions' pairs at the unique
aligned source position (the first, and only, alignment hit for i). -/
def extractInstancesSpec (extractedTags : List Char) (featureFns : List FeatureFn)
    (source : List String) (target : List Word) (alignment : List (ℕ × ℕ)) :
    List (Word × Feat) :=
  target.enum.filterMap (fun iw =>
    if iw.2.tag.cat ∈ extractedTags ∧
        alignment.countP (fun kj => decide (kj.1 = iw.1)) = 1 then
      some (iw.2, pyDict ((featureFns.map (fun ff =>
        ff source iw.2.lem
          (((alignment.find? (fun kj => decide (kj.1 = iw.1))).map
            (fun kj => kj.2)).getD 0))).flatten))
    else none)

/-- The reverse-inflection map, loaded once and read-only: (lemma,
category) ↦ ordered list of (attribute-string, surface-form) candidates. -/
abbrev RevMap := List ((String × Char) × List (String × String))

/-- `config.get_attributes` (an external collaborator): the attribute names
an attribute string of a category realises. -/
abbrev GetAttributes := Char → String → List String

/-- The structured trainer's pooled training data (struct_train.py lines
28–33): features, per-candidate label rows, per-instance gold indices,
per-instance (start, end) ranges, the row counter `n`, and the
(lemma, category) ↦ range dedup cache `inflection_lims`. -/
structure PoolState where
  X : List Feat
  Y_all : List (List (String × ℕ))
  Y_star : List ℕ
  Y_lim : List (ℕ × ℕ)
  n : ℕ
  lims : List ((String × Char) × (ℕ × ℕ))
deriving DecidableEq

/-- The empty pool (struct_train.py lines 28–33). -/
def poolInit : PoolState :=
  { X := [], Y_all := [], Y_star := [], Y_lim := [], n := 0, lims := [] }

/-- One iteration of the trainer's instance loop (struct_train.py lines
35–57): skip candidate sets of size one and gold-miss instances; append
the features; append the group's label rows and record its range the first
time the (lemma, category) group is seen, else reuse the cached range;
append the gold index for every candidate whose attribute string matches
the reference. -/
def poolStep (revMap : RevMap) (getAttributes : GetAttributes)
    (st : PoolState) (inst : Word × Feat) : PoolState :=
  let w := inst.1
  let cat := w.tag.cat
  let refAttributes := w.tag.attrs
  let possible := dlookupD revMap (w.lem, cat) []
  if possible.length = 1 then st
  else if (refAttributes, w.inflection) ∈ possible then
    let stars := (possible.enum.filter
      (fun ia => decide (ia.2.1 = refAttributes))).map (fun ia => ia.1)
    match dlookup st.lims (w.lem, cat) with
    | some lims0 =>
      { st with
        X := st.X ++ [inst.2]
        Y_lim := st.Y_lim ++ [lims0]
        Y_star := st.Y_star ++ stars }
    | none =>
      { X := st.X ++ [inst.2]
        Y_all := st.Y_all ++ possible.map (fun av =>
          pyDict ((getAttributes cat av.1).map (fun a => (a, 1))))
        Y_star := st.Y_star ++ stars
        Y_lim := st.Y_lim ++ [(st.n, st.n + possible.length)]
        n := st.n + possible.length
        lims := dictAssign st.lims (w.lem, cat) (st.n, st.n + possible.length) }
  else st

/-- The whole training-data generation loop, over the stream of extracted
instances. -/
def runPool (revMap : RevMap) (getAttributes : GetAttributes)
    (insts : List (Word × Feat)) : PoolState :=
  insts.foldl (poolStep revMap getAttributes) poolInit

/-- The trainer's per-instance admission test (struct_train.py lines
41–42): more than one candidate, and the gold pair among them. -/
def poolKeep (revMap : RevMap) (inst : Word × Feat) : Bool :=
  let possible := dlookupD revMap (inst.1.lem, inst.1.tag.cat) []
  !(possible.length == 1) &&
    decide ((inst.1.tag.attrs, inst.1.inflection) ∈ possible)

/-- The two scoring strategies behind the common `score_all` capability
(`make_model`, predict.py lines 56–59: a dict of per-position classifiers
selects the factorized variant, anything else the monolithic one). -/
inductive Model : Type where
  | simple : SimpleModel → Model
  | vector : VectorModel → Model

/-- Dynamic dispatch of `model.score_all` with the two variants' outcomes
unified: factorized scores are finite reals, and a factorized `KeyError`
aborts the run (`Except.error`). -/
noncomputable def Model.score_all :
    Model → List (String × String) → Feat → Except Unit (List (XFloat × String × String))
  | Model.simple M, infl, f => Except.ok (M.score_all infl f)
  | Model.vector V, infl, f =>
    match V.score_all infl f with
    | none => Except.error ()
    | some l => Except.ok (l.map (fun s => (XFloat.fin s.1, s.2.1, s.2.2)))

/-- IEEE `<` on scores (all comparisons with NaN are false). -/
def xflt : XFloat → XFloat → Prop
  | XFloat.fin a, XFloat.fin b => a < b
  | XFloat.ninf, XFloat.fin _ => True
  | XFloat.ninf, XFloat.pinf => True
  | XFloat.fin _, XFloat.pinf => True
  | _, _ => False

/-- IEEE `==` on scores (NaN equals nothing). -/
def xfeq : XFloat → XFloat → Prop
  | XFloat.fin a, XFloat.fin b => a = b
  | XFloat.ninf, XFloat.ninf => True
  | XFloat.pinf, XFloat.pinf => True
  | _, _ => False

/-- Python tuple `<` on the (score, attribute-string, surface-form) triples
the evaluator sorts: elementwise, first non-equal component decides. -/
def pyLt (a b : XFloat × String × String) : Prop :=
  xflt a.1 b.1 ∨
    (xfeq a.1 b.1 ∧ (a.2.1 < b.2.1 ∨ (a.2.1 = b.2.1 ∧ a.2.2 < b.2.2)))

noncomputable instance notPyLtDecidable :
    DecidableRel (fun a b : XFloat × String × String => ¬ pyLt a b) :=
  fun _ _ => Classical.dec _

/-- `sorted(scored_inflections, reverse=True)` (predict.py line 98):
Python's stable descending sort; insertion sort with the relation
"not tuple-less-than" computes the same list (both are stable for the
same total preorder). -/
noncomputable def rankCandidates (scored : List (XFloat × String × String)) :
    List (XFloat × String × String) :=
  List.insertionSort (fun a b => ¬ pyLt a b) scored

/-- One category's accumulator row `stats[cat]` (predict.py line 82):
instance count, reciprocal-rank sum, correct count, gold log-score sum. -/
structure StatsRec where
  n : ℕ
  rr : ℝ
  correct : ℕ
  logprob : XFloat

/-- The per-instance ranking outcome (predict.py lines 97–107): 1-based
gold rank (`1 + ranked tags .index(gold_tag)`), whether the top-ranked
surface form equals the gold one, and the gold candidate's score. -/
noncomputable def instOutcome (model : Model) (possible : List (String × String))
    (features : Feat) (goldTag goldInfl : String) :
    Except Unit (ℕ × Bool × XFloat) :=
  match Model.score_all model possible features with
  | Except.error e => Except.error e
  | Except.ok scored =>
    match rankCandidates scored with
    | [] => Except.error ()
    | p :: rest =>
      match ((p :: rest).map (fun e => e.2.1)).findIdx? (fun t => t == goldTag) with
      | none => Except.error ()
      | some idx =>
        match (p :: rest).find? (fun e => e.2.1 == goldTag) with
        | none => Except.error ()
        | some g => Except.ok (1 + idx, goldInfl == p.2.2, g.1)

/-- One iteration of the evaluator's instance loop (predict.py lines
85–112): look the candidates up, report and skip a gold miss, fetch the
category's model (`models[category]`, a `KeyError` when absent), rank, and
accumulate the category's statistics row. -/
noncomputable def evalStep (revMap : RevMap) (models : List (Char × Model))
    (st : Char → StatsRec) (inst : Word × Feat) : Except Unit (Char → StatsRec) :=
  let w := inst.1
  let cat := w.tag.cat
  let goldTag := w.tag.attrs
  let possible := dlookupD revMap (w.lem, cat) []
  if (goldTag, w.inflection) ∈ possible then
    match dlookup models cat with
    | none => Except.error ()
    | some model =>
      match instOutcome model possible inst.2 goldTag w.inflection with
      | Except.error e => Except.error e
      | Except.ok out =>
        Except.ok (fun c =>
          if c = cat then
            { n := (st cat).n + 1
              rr := (st cat).rr + 1 / ((out.1 : ℝ))
              correct := (st cat).correct + (if out.2.1 then 1 else 0)
              logprob := XFloat.add (st cat).logprob out.2.2 }
          else st c)
  else Except.ok st

/-- All statistics rows start at `[0, 0, 0, 0]` (predict.py line 82);
categories are totalised (the extractor only ever yields extracted
categories, so the dict never sees another key). -/
noncomputable def statsInit : Char → StatsRec :=
  fun _ => { n := 0, rr := 0, correct := 0, logprob := XFloat.fin 0 }

/-- The evaluator's whole instance loop. -/
noncomputable def runEval (revMap : RevMap) (models : List (Char × Model))
    (insts : List (Word × Feat)) : Except Unit (Char → StatsRec) :=
  insts.foldlM (evalStep revMap models) statsInit

/-- One summary line (predict.py lines 114–119): (MRR, accuracy,
perplexity) of a category, skipped when it saw no instances. -/
noncomputable def reportCategory (s : StatsRec) : Option (ℝ × ℝ × XFloat) :=
  if s.n = 0 then none
  else some (s.rr / (s.n : ℝ), (s.correct : ℝ) / (s.n : ℝ),
    XFloat.exp ((XFloat.neg s.logprob).divNat s.n))

/-- The model-loading loop (predict.py lines 73–78): repeated Python dict
assignment `models[category] = make_model(category, v, m)`; the
artifact-shape dispatch of `make_model` is absorbed into the already-built
`Model` value. -/
def loadModels (artifacts : List (Char × Model)) : List (Char × Model) :=
  artifacts.foldl (fun models cm => dictAssign models cm.1 cm.2) []

/-- The instances of category c that the evaluator aggregates: those whose
gold (attribute-string, surface-form) pair is among the candidates
(gold misses are reported and excluded, predict.py lines 90–93). -/
def keptInstances (revMap : RevMap) (c : Char) (insts : List (Word × Feat)) :
    List (Word × Feat) :=
  insts.filter (fun wf => wf.1.tag.cat == c &&
    decide ((wf.1.tag.attrs, wf.1.inflection) ∈
      dlookupD revMap (wf.1.lem, wf.1.tag.cat) []))

/-- The ranking outcome the evaluator computes for an aggregated instance
(gold rank, top-surface correctness, gold score); the junk default is
reachable only when the run aborts. -/
noncomputable def instOutcomeD (model : Model) (revMap : RevMap)
    (wf : Word × Feat) : ℕ × Bool × XFloat :=
  (instOutcome model (dlookupD revMap (wf.1.lem, wf.1.tag.cat) []) wf.2
    wf.1.tag.attrs wf.1.inflection).toOption.getD (0, false, XFloat.nan)

section Helpers

/-- The first list element satisfying p is the head of the p-filtered list. -/
theorem find_eq_head_filter {α : Type} (p : α → Bool) (l : List α) :
    l.find? p = (l.filter p).head? := by
  induction l with
  | nil => simp
  | cons x xs ih =>
    by_cases hx : p x
    · rw [List.find?_cons_of_pos _ hx, List.filter_cons_of_pos hx, List.head?_cons]
    · rw [List.find?_cons_of_neg _ (by simp [hx]),
        List.filter_cons_of_neg (by simp [hx]), ih]

theorem dlookup_nil {κ ν : Type} [DecidableEq κ] (k : κ) :
    dlookup ([] : List (κ × ν)) k = none := rfl

theorem dlookup_cons {κ ν : Type} [DecidableEq κ] (p : κ × ν)
    (rest : List (κ × ν)) (k : κ) :
    dlookup (p :: rest) k = if p.1 = k then some p.2 else dlookup rest k := by
  by_cases h : p.1 = k
  · simp [dlookup, List.find?_cons, h]
  · simp [dlookup, List.find?_cons, h]

/-- Looking a key up after a Python dict assignment: the assigned key sees
the new value, every other key is untouched. -/
theorem dlookup_dictAssign {κ ν : Type} [DecidableEq κ]
    (d : List (κ × ν)) (k k2 : κ) (v : ν) :
    dlookup (dictAssign d k v) k2 = if k2 = k then some v else dlookup d k2 := by
  induction d with
  | nil =>
    rw [show dictAssign ([] : List (κ × ν)) k v = [(k, v)] from rfl, dlookup_cons]
    by_cases h : k2 = k
    · simp [h]
    · simp [h, Ne.symm h]
  | cons p rest ih =>
    by_cases hp : p.1 = k
    · rw [show dictAssign (p :: rest) k v = (k, v) :: rest by simp [dictAssign, hp],
        dlookup_cons, dlookup_cons]
      by_cases h : k2 = k
      · simp [h]
      · rw [if_neg (by simpa using Ne.symm h), if_neg h,
          if_neg (by rw [hp]; exact Ne.symm h)]
    · rw [show dictAssign (p :: rest) k v = p :: dictAssign rest k v by
        simp [dictAssign, hp], dlookup_cons, dlookup_cons]
      by_cases h2 : p.1 = k2
      · rw [if_pos h2, if_pos h2, if_neg (by rw [← h2]; exact fun hh => hp hh)]
      · rw [if_neg h2, if_neg h2, ih]

end Helpers

/-- Claim C5: the Instance Extractor emits an instance for a target
position precisely when the position's category is extracted and exactly
one alignment pair points at it (zero or several aligned source positions
are silently skipped), and the emitted feature vector is the dict of all
configured feature functions' (name, value) pairs at (source sequence,
lemma, aligned source position): the code equals the specification-shaped
extractor. -/
theorem extract_instances_eq_spec (extractedTags : List Char)
    (featureFns : List FeatureFn) (source : List String) (target : List Word)
    (alignment : List (ℕ × ℕ)) :
    extract_instances extractedTags featureFns source target alignment =
      extractInstancesSpec extractedTags featureFns source target alignment := by
  unfold extract_instances extractInstancesSpec
  apply List.filterMap_congr
  intro iw _
  by_cases hmem : iw.2.tag.cat ∈ extractedTags
  · rcases hfl : alignment.filter (fun kj => decide (kj.1 = iw.1)) with - | ⟨x, rest⟩
    · have hc : alignment.countP (fun kj => decide (kj.1 = iw.1)) = 0 := by
        rw [List.countP_eq_length_filter, hfl]; rfl
      simp [hmem, hfl, hc]
    · rcases rest with - | ⟨y, rest2⟩
      · have hc : alignment.countP (fun kj => decide (kj.1 = iw.1)) = 1 := by
          rw [List.countP_eq_length_filter, hfl]; rfl
        have hf : alignment.find? (fun kj => decide (kj.1 = iw.1)) = some x := by
          rw [find_eq_head_filter, hfl]; rfl
        simp [hmem, hfl, hc, hf]
      · have hc : alignment.countP (fun kj => decide (kj.1 = iw.1)) =
            2 + rest2.length := by
          rw [List.countP_eq_length_filter, hfl]
          simp [List.length_cons]; ring
        simp only [hmem, true_and, hc, if_true]
        rw [if_neg (by omega)]
        simp [hfl]
  · simp [hmem]

section PoolLemmas

/-- A filtered-out instance (single candidate, or gold pair absent) leaves
the whole pool state untouched. -/
theorem poolStep_skip (revMap : RevMap) (getAttributes : GetAttributes)
    (st : PoolState) (inst : Word × Feat) (h : poolKeep revMap inst = false) :
    poolStep revMap getAttributes st inst = st := by
  unfold poolKeep at h
  unfold poolStep
  by_cases h1 : (dlookupD revMap (inst.1.lem, inst.1.tag.cat) []).length = 1
  · simp [h1]
  · rw [if_neg h1]
    have h2 : ¬ (inst.1.tag.attrs, inst.1.inflection) ∈
        dlookupD revMap (inst.1.lem, inst.1.tag.cat) [] := by
      simp only [Bool.and_eq_false_iff, Bool.not_eq_true'] at h
      rcases h with h | h
      · exact absurd (by simpa using h) h1
      · simpa using h
    rw [if_neg h2]

/-- A kept instance appends exactly its feature row to X, whichever cache
branch it takes. -/
theorem poolStep_keep_X (revMap : RevMap) (getAttributes : GetAttributes)
    (st : PoolState) (inst : Word × Feat) (h : poolKeep revMap inst = true) :
    (poolStep revMap getAttributes st inst).X = st.X ++ [inst.2] := by
  unfold poolKeep at h
  simp only [Bool.and_eq_true, Bool.not_eq_true', beq_eq_false_iff_ne, ne_eq,
    decide_eq_true_eq] at h
  unfold poolStep
  rw [if_neg h.1, if_pos h.2]
  rcases hc : dlookup st.lims (inst.1.lem, inst.1.tag.cat) with - | r <;> simp [hc]

theorem foldl_poolStep_filter (revMap : RevMap) (getAttributes : GetAttributes)
    (insts : List (Word × Feat)) (st : PoolState) :
    insts.foldl (poolStep revMap getAttributes) st =
      (insts.filter (poolKeep revMap)).foldl (poolStep revMap getAttributes) st := by
  induction insts generalizing st with
  | nil => rfl
  | cons i rest ih =>
    by_cases hk : poolKeep revMap i
    · rw [List.foldl_cons, ih, List.filter_cons, if_pos hk, List.foldl_cons]
    · simp only [Bool.not_eq_true] at hk
      rw [List.foldl_cons, poolStep_skip revMap getAttributes st i hk, ih,
        List.filter_cons, if_neg (by simp [hk])]

theorem foldl_poolStep_X_length (revMap : RevMap) (getAttributes : GetAttributes)
    (insts : List (Word × Feat)) (st : PoolState)
    (hall : ∀ i ∈ insts, poolKeep revMap i = true) :
    (insts.foldl (poolStep revMap getAttributes) st).X.length =
      st.X.length + insts.length := by
  induction insts generalizing st with
  | nil => simp
  | cons i rest ih =>
    simp only [List.foldl_cons, List.length_cons]
    rw [ih _ (fun j hj => hall j (by simp [hj]))]
    rw [poolStep_keep_X revMap getAttributes st i (hall i (by simp))]
    simp only [List.length_append, List.length_cons, List.length_nil]
    omega

end PoolLemmas

/-- Claim C6: the structured trainer's pool never receives a row from an
instance whose candidate set has exactly one element or whose gold
(attribute-string, surface-form) pair is absent from its candidates: the
whole pool construction equals the construction run on the admitted
instances only, and each admitted instance contributes exactly one
feature row. -/
theorem runPool_excludes_skipped (revMap : RevMap)
    (getAttributes : GetAttributes) (insts : List (Word × Feat)) :
    runPool revMap getAttributes insts =
      runPool revMap getAttributes (insts.filter (poolKeep revMap)) ∧
    (runPool revMap getAttributes insts).X.length =
      (insts.filter (poolKeep revMap)).length := by
  constructor
  · exact foldl_poolStep_filter revMap getAttributes insts poolInit
  · unfold runPool
    rw [foldl_poolStep_filter]
    rw [foldl_poolStep_X_length revMap getAttributes _ poolInit
      (fun i hi => (List.mem_filter.mp hi).2)]
    simp [poolInit]

/-- Claim C7: during pool construction an admitted instance whose
(lemma, category) group is already cached appends no label rows and
records exactly the cached (start, end) range, while the first instance of
a group appends the group's label rows, records the fresh range
(n, n + number of candidates), and caches it. -/
theorem poolStep_dedup (revMap : RevMap) (getAttributes : GetAttributes)
    (st : PoolState) (w : Word) (f : Feat)
    (hlen : (dlookupD revMap (w.lem, w.tag.cat) []).length ≠ 1)
    (hmem : (w.tag.attrs, w.inflection) ∈ dlookupD revMap (w.lem, w.tag.cat) []) :
    (∀ r, dlookup st.lims (w.lem, w.tag.cat) = some r →
      (poolStep revMap getAttributes st (w, f)).Y_all = st.Y_all ∧
      (poolStep revMap getAttributes st (w, f)).Y_lim = st.Y_lim ++ [r] ∧
      (poolStep revMap getAttributes st (w, f)).lims = st.lims) ∧
    (dlookup st.lims (w.lem, w.tag.cat) = none →
      (poolStep revMap getAttributes st (w, f)).Y_all = st.Y_all ++
        (dlookupD revMap (w.lem, w.tag.cat) []).map (fun av =>
          pyDict ((getAttributes w.tag.cat av.1).map (fun a => (a, 1)))) ∧
      (poolStep revMap getAttributes st (w, f)).Y_lim = st.Y_lim ++
        [(st.n, st.n + (dlookupD revMap (w.lem, w.tag.cat) []).length)] ∧
      dlookup (poolStep revMap getAttributes st (w, f)).lims (w.lem, w.tag.cat) =
        some (st.n, st.n + (dlookupD revMap (w.lem, w.tag.cat) []).length)) := by
  constructor
  · intro r hr
    unfold poolStep
    rw [if_neg hlen, if_pos hmem, hr]
    exact ⟨rfl, rfl, rfl⟩
  · intro hr
    unfold poolStep
    rw [if_neg hlen, if_pos hmem, hr]
    refine ⟨rfl, rfl, ?_⟩
    rw [dlookup_dictAssign, if_pos rfl]

/-- Witness for claim C7: a concrete admitted instance meeting both
hypotheses, its group not yet cached. -/
theorem poolStep_dedup_witness :
    ((dlookupD [(("dog", 'N'), [("S", "dog"), ("P", "dogs")])]
        ("dog", 'N') ([] : List (String × String))).length ≠ 1 ∧
      ("P", "dogs") ∈ dlookupD [(("dog", 'N'), [("S", "dog"), ("P", "dogs")])]
        ("dog", 'N') ([] : List (String × String))) ∧
    (dlookup poolInit.lims ("dog", 'N') = none →
      (poolStep [(("dog", 'N'), [("S", "dog"), ("P", "dogs")])]
          (fun _ a => [a]) poolInit
          (Word.mk "dogs" "dog" (Tag.mk 'N' "P"), [])).Y_all =
        poolInit.Y_all ++
          (dlookupD [(("dog", 'N'), [("S", "dog"), ("P", "dogs")])]
            ("dog", 'N') ([] : List (String × String))).map (fun av =>
              pyDict (((fun (_ : Char) (a : String) => [a]) 'N' av.1).map
                (fun a => (a, 1)))) ∧
      (poolStep [(("dog", 'N'), [("S", "dog"), ("P", "dogs")])]
          (fun _ a => [a]) poolInit
          (Word.mk "dogs" "dog" (Tag.mk 'N' "P"), [])).Y_lim =
        poolInit.Y_lim ++
          [(poolInit.n, poolInit.n +
            (dlookupD [(("dog", 'N'), [("S", "dog"), ("P", "dogs")])]
              ("dog", 'N') ([] : List (String × String))).length)] ∧
      dlookup (poolStep [(("dog", 'N'), [("S", "dog"), ("P", "dogs")])]
          (fun _ a => [a]) poolInit
          (Word.mk "dogs" "dog" (Tag.mk 'N' "P"), [])).lims ("dog", 'N') =
        some (poolInit.n, poolInit.n +
          (dlookupD [(("dog", 'N'), [("S", "dog"), ("P", "dogs")])]
            ("dog", 'N') ([] : List (String × String))).length)) :=
  ⟨⟨by decide, by decide⟩,
    (poolStep_dedup [(("dog", 'N'), [("S", "dog"), ("P", "dogs")])]
      (fun _ a => [a]) poolInit (Word.mk "dogs" "dog" (Tag.mk 'N' "P")) []
      (by decide) (by decide)).2⟩

/-- Counterexample for claim C4: loading two artifacts with the same
category does not fail fast — the loader silently keeps the later one and
drops the earlier one. -/
theorem loadModels_duplicate_counterexample :
    loadModels [('N', Model.simple (SimpleModel.mk ["a"] (fun _ => []))),
        ('N', Model.simple (SimpleModel.mk ["b"] (fun _ => [])))] =
      [('N', Model.simple (SimpleModel.mk ["b"] (fun _ => [])))] ∧
    Model.simple (SimpleModel.mk ["a"] (fun _ => [])) ≠
      Model.simple (SimpleModel.mk ["b"] (fun _ => [])) := by
  constructor
  · rfl
  · intro h
    simp only [Model.simple.injEq, SimpleModel.mk.injEq] at h
    exact absurd h.1 (by simp)

/-- Claim C4 (amended): loading never fails on duplicate categories — for
any artifact list the binding of a category is the model of the last
artifact carrying it; but a requested category with no loaded model does
fail fast: the evaluator aborts with the uncaught KeyError instead of
defaulting or skipping. -/
theorem loadModels_last_wins_and_missing_fatal :
    (∀ (artifacts : List (Char × Model)) (c : Char) (m : Model),
      dlookup (loadModels (artifacts ++ [(c, m)])) c = some m) ∧
    (∀ (revMap : RevMap) (models : List (Char × Model)) (st : Char → StatsRec)
      (w : Word) (f : Feat),
      dlookup models w.tag.cat = none →
      (w.tag.attrs, w.inflection) ∈ dlookupD revMap (w.lem, w.tag.cat) [] →
      evalStep revMap models st (w, f) = Except.error ()) := by
  constructor
  · intro artifacts c m
    unfold loadModels
    rw [List.foldl_append, List.foldl_cons, List.foldl_nil, dlookup_dictAssign,
      if_pos rfl]
  · intro revMap models st w f hnone hmem
    unfold evalStep
    rw [if_pos hmem, hnone]

/-- Witness for claim C4 (amended): a concrete duplicate-category load and
a concrete instance whose category has no loaded model. -/
theorem loadModels_missing_fatal_witness :
    dlookup (loadModels ([('V', Model.simple (SimpleModel.mk [] (fun _ => [])))] ++
        [('N', Model.simple (SimpleModel.mk ["S"] (fun _ => [])))])) 'N' =
      some (Model.simple (SimpleModel.mk ["S"] (fun _ => []))) ∧
    (dlookup ([] : List (Char × Model)) 'N' = none ∧
      ("S", "dog") ∈ dlookupD [(("dog", 'N'), [("S", "dog")])]
        ("dog", 'N') ([] : List (String × String))) ∧
    evalStep [(("dog", 'N'), [("S", "dog")])] [] statsInit
        (Word.mk "dog" "dog" (Tag.mk 'N' "S"), []) = Except.error () :=
  ⟨loadModels_last_wins_and_missing_fatal.1
      [('V', Model.simple (SimpleModel.mk [] (fun _ => [])))] 'N'
      (Model.simple (SimpleModel.mk ["S"] (fun _ => []))),
    ⟨rfl, by decide⟩,
    loadModels_last_wins_and_missing_fatal.2 [(("dog", 'N'), [("S", "dog")])]
      [] statsInit (Word.mk "dog" "dog" (Tag.mk 'N' "S")) [] rfl (by decide)⟩

section OptionMapM

theorem mapM_option_cons {β γ : Type} (g : β → Option γ) (a : β) (l : List β) :
    (a :: l).mapM g = (g a).bind (fun c => (l.mapM g).map (fun cs => c :: cs)) := by
  rw [List.mapM_cons]
  cases hg : g a with
  | none => rfl
  | some c =>
    cases hl : l.mapM g with
    | none => simp
    | some cs => simp

theorem mapM_option_length {β γ : Type} (g : β → Option γ) (l : List β)
    (l2 : List γ) (h : l.mapM g = some l2) : l2.length = l.length := by
  induction l generalizing l2 with
  | nil => rw [List.mapM_nil] at h; cases h; rfl
  | cons a rest ih =>
    rw [mapM_option_cons] at h
    cases hg : g a with
    | none => rw [hg] at h; exact absurd h (by simp)
    | some c =>
      rw [hg] at h
      cases hrest : rest.mapM g with
      | none => rw [hrest] at h; exact absurd h (by simp)
      | some cs =>
        rw [hrest] at h
        rw [show ((some c).bind (fun c => (some cs).map (fun l => c :: l)) : Option (List γ)) = some (c :: cs) from rfl] at h
        cases h
        simp [ih cs hrest]

theorem mapM_option_map_of {β γ : Type} (g : β → Option γ) (pr : γ → β)
    (hpr : ∀ b c, g b = some c → pr c = b) (l : List β) (l2 : List γ)
    (h : l.mapM g = some l2) : l2.map pr = l := by
  induction l generalizing l2 with
  | nil => rw [List.mapM_nil] at h; cases h; rfl
  | cons a rest ih =>
    rw [mapM_option_cons] at h
    cases hg : g a with
    | none => rw [hg] at h; exact absurd h (by simp)
    | some c =>
      rw [hg] at h
      cases hrest : rest.mapM g with
      | none => rw [hrest] at h; exact absurd h (by simp)
      | some cs =>
        rw [hrest] at h
        rw [show ((some c).bind (fun c => (some cs).map (fun l => c :: l)) : Option (List γ)) = some (c :: cs) from rfl] at h
        cases h
        simp [hpr a c hg, ih cs hrest]

theorem mapM_option_get {β γ : Type} (g : β → Option γ) (l : List β)
    (l2 : List γ) (h : l.mapM g = some l2) (i : ℕ) (b : β)
    (hb : l.get? i = some b) : ∃ c, l2.get? i = some c ∧ g b = some c := by
  induction l generalizing l2 i with
  | nil => simp at hb
  | cons a rest ih =>
    rw [mapM_option_cons] at h
    cases hg : g a with
    | none => rw [hg] at h; exact absurd h (by simp)
    | some c =>
      rw [hg] at h
      cases hrest : rest.mapM g with
      | none => rw [hrest] at h; exact absurd h (by simp)
      | some cs =>
        rw [hrest] at h
        rw [show ((some c).bind (fun c => (some cs).map (fun l => c :: l)) : Option (List γ)) = some (c :: cs) from rfl] at h
        cases h
        cases i with
        | zero =>
          simp only [List.get?_cons_zero, Option.some.injEq] at hb
          subst hb
          exact ⟨c, rfl, hg⟩
        | succ j =>
          simp only [List.get?_cons_succ] at hb
          exact ih cs hrest j hb

end OptionMapM

/-- Counterexample for claim C3: a single-candidate list whose tag the
monolithic classifier never saw is returned with score NaN
(−inf − −inf), not with log-probability 0.0. -/
theorem singleton_unseen_tag_counterexample :
    SimpleModel.score_all (SimpleModel.mk ["A"] (fun _ => [(0 : ℝ)]))
        [("B", "x")] [] = [(XFloat.nan, "B", "x")] ∧
    XFloat.nan ≠ XFloat.fin 0 := by
  refine ⟨rfl, ?_⟩
  intro h
  exact XFloat.noConfusion h

/-- Claim C3 (amended): a candidate list of size one is returned with
log-probability exactly 0 by either variant, provided the monolithic
classifier knows the candidate's tag (otherwise the score is NaN), and
provided the factorized lookups succeed at all (otherwise the call raises
KeyError). -/
theorem singleton_candidate_scores_zero
    (M : SimpleModel) (V : VectorModel) (tag infl : String) (f : Feat) :
    ((dlookup (M.classes.zip (M.logProba f)) tag).isSome →
      M.score_all [(tag, infl)] f = [(XFloat.fin 0, tag, infl)]) ∧
    (∀ r, V.score_all [(tag, infl)] f = some r → r = [((0 : ℝ), tag, infl)]) := by
  constructor
  · intro h
    obtain ⟨v, hv⟩ := Option.isSome_iff_exists.mp h
    have hv2 : simpleLookup M f tag = XFloat.fin v := by
      unfold simpleLookup; rw [hv]
    unfold SimpleModel.score_all
    simp only [List.map_cons, List.map_nil, hv2]
    rw [show logaddexpReduce [XFloat.fin v] = XFloat.fin v from rfl]
    rw [show XFloat.sub (XFloat.fin v) (XFloat.fin v) = XFloat.fin (v - v) from rfl]
    rw [sub_self]
  · intro r hr
    unfold VectorModel.score_all at hr
    rw [mapM_option_cons, List.mapM_nil] at hr
    cases hst : scoreTag V f tag with
    | none =>
      rw [hst] at hr
      exact absurd hr (by simp)
    | some s =>
      rw [hst] at hr
      have h3 : List.map (fun e => (e.1 -
          logaddexpReduceR (List.map (fun e0 =>
            e0.1) [(s, tag, infl)]), e.2.1, e.2.2)) [(s, tag, infl)] = r :=
        Option.some.inj hr
      rw [← h3]
      simp only [List.map_cons, List.map_nil]
      rw [show logaddexpReduceR [s] = s from rfl, sub_self]

/-- Witness for claim C3 (amended): a concrete known tag for the
monolithic model and a concrete successful factorized call. -/
theorem singleton_candidate_witness :
    (dlookup ((SimpleModel.mk ["S"] (fun _ => [(2 : ℝ)])).classes.zip
        ((SimpleModel.mk ["S"] (fun _ => [(2 : ℝ)])).logProba [])) "S").isSome ∧
    SimpleModel.score_all (SimpleModel.mk ["S"] (fun _ => [(2 : ℝ)]))
      [("S", "cat")] [] = [(XFloat.fin 0, "S", "cat")] ∧
    VectorModel.score_all (VectorModel.mk 1 [none]) [("a", "y")] [] =
      some ((VectorModel.score_all (VectorModel.mk 1 [none])
        [("a", "y")] []).getD []) ∧
    (VectorModel.score_all (VectorModel.mk 1 [none]) [("a", "y")] []).getD [] =
      [((0 : ℝ), "a", "y")] := by
  refine ⟨rfl, ?_, rfl, ?_⟩
  · exact (singleton_candidate_scores_zero (SimpleModel.mk ["S"] (fun _ => [(2 : ℝ)]))
      (VectorModel.mk 1 [none]) "S" "cat" []).1 rfl
  · exact (singleton_candidate_scores_zero (SimpleModel.mk ["S"] (fun _ => [(2 : ℝ)]))
      (VectorModel.mk 1 [none]) "a" "y" []).2 _ rfl

section NormalizationLemmas

theorem exp_foldl_logaddexpR (l : List ℝ) (s0 : ℝ) :
    Real.exp (l.foldl (fun a b => Real.log (Real.exp a + Real.exp b)) s0) =
      Real.exp s0 + (l.map Real.exp).sum := by
  induction l generalizing s0 with
  | nil => simp
  | cons y ys ih =>
    simp only [List.foldl_cons, List.map_cons, List.sum_cons]
    rw [ih, Real.exp_log (by positivity)]
    ring

theorem simpleLookup_isFN (M : SimpleModel) (f : Feat) (tag : String) :
    XFloat.IsFN (simpleLookup M f tag) := by
  unfold simpleLookup
  cases dlookup (M.classes.zip (M.logProba f)) tag <;> trivial

theorem simple_score_all_eq (M : SimpleModel) (cands : List (String × String))
    (f : Feat) :
    M.score_all cands f = cands.map (fun ti =>
      (XFloat.sub (simpleLookup M f ti.1)
        (logaddexpReduce (cands.map (fun ti2 => simpleLookup M f ti2.1))),
       ti.1, ti.2)) := by
  unfold SimpleModel.score_all
  rw [List.map_map, List.map_map]
  rfl

end NormalizationLemmas

/-- Counterexample for claim C1: when the monolithic classifier knows none
of the candidate tags every score is −inf, the log-sum-exp normaliser is
−inf, each returned value is NaN, and the exponentials sum to NaN — not
to 1. -/
theorem score_all_nan_counterexample :
    ((SimpleModel.score_all (SimpleModel.mk ["C"] (fun _ => [(0 : ℝ)]))
        [("A", "x"), ("B", "y")] []).map (fun e => XFloat.exp e.1)).foldl
      XFloat.add (XFloat.fin 0) = XFloat.nan ∧
    SimpleModel.score_all (SimpleModel.mk ["C"] (fun _ => [(0 : ℝ)]))
        [("A", "x"), ("B", "y")] [] =
      [(XFloat.nan, "A", "x"), (XFloat.nan, "B", "y")] ∧
    XFloat.nan ≠ XFloat.fin 1 :=
  ⟨rfl, rfl, fun h => XFloat.noConfusion h⟩

/-- Claim C1 (amended): for a non-empty candidate list either variant
returns one (score, attribute-string, surface-form) entry per candidate,
in input order, with exponentials summing to exactly 1 — for the
monolithic model provided at least one candidate tag is known to the
classifier (otherwise all scores are NaN), and for the factorized model
provided the call returns at all (an unseen attribute value raises
KeyError). -/
theorem score_all_sums_to_one
    (M : SimpleModel) (V : VectorModel) (cands : List (String × String))
    (f : Feat) (hne : cands ≠ []) :
    ((∃ c ∈ cands, (dlookup (M.classes.zip (M.logProba f)) c.1).isSome) →
      (M.score_all cands f).map (fun e => (e.2.1, e.2.2)) = cands ∧
      ((M.score_all cands f).map (fun e => XFloat.exp e.1)).foldl XFloat.add
        (XFloat.fin 0) = XFloat.fin 1) ∧
    (∀ r, V.score_all cands f = some r →
      r.map (fun e => (e.2.1, e.2.2)) = cands ∧
      (r.map (fun e => Real.exp e.1)).sum = 1) := by
  constructor
  · rintro ⟨c, hc, hcs⟩
    have hcfin : ∃ v, simpleLookup M f c.1 = XFloat.fin v := by
      obtain ⟨v, hv⟩ := Option.isSome_iff_exists.mp hcs
      exact ⟨v, by unfold simpleLookup; rw [hv]⟩
    have hFN : ∀ s ∈ cands.map (fun ti => simpleLookup M f ti.1), XFloat.IsFN s := by
      intro s hs
      obtain ⟨ti, -, rfl⟩ := List.mem_map.mp hs
      exact simpleLookup_isFN M f ti.1
    rcases hsc : cands.map (fun ti => simpleLookup M f ti.1) with - | ⟨s0, srest⟩
    · exact absurd (List.map_eq_nil_iff.mp hsc) hne
    · have hFN0 : XFloat.IsFN s0 := hFN s0 (by rw [hsc]; exact List.mem_cons_self _ _)
      have hFNr : ∀ y ∈ srest, XFloat.IsFN y := fun y hy =>
        hFN y (by rw [hsc]; exact List.mem_cons_of_mem _ hy)
      have hzdef : logaddexpReduce (cands.map (fun ti => simpleLookup M f ti.1)) =
          srest.foldl XFloat.logaddexp s0 := by rw [hsc]; rfl
      have hzFN : XFloat.IsFN (srest.foldl XFloat.logaddexp s0) :=
        foldl_logaddexp_isFN hFN0 hFNr
      have hzne : srest.foldl XFloat.logaddexp s0 ≠ XFloat.ninf := by
        intro h
        rw [foldl_logaddexp_eq_ninf_iff hFN0 hFNr] at h
        obtain ⟨v, hv⟩ := hcfin
        have hmem : simpleLookup M f c.1 ∈
            cands.map (fun ti => simpleLookup M f ti.1) :=
          List.mem_map.mpr ⟨c, hc, rfl⟩
        rw [hsc] at hmem
        rcases List.mem_cons.mp hmem with h0 | hr
        · rw [h0, h.1] at hv; exact XFloat.noConfusion hv
        · rw [h.2 _ hr] at hv; exact XFloat.noConfusion hv
      obtain ⟨zr, hzr⟩ := isFN_fin_of_ne_ninf hzFN hzne
      have hsumz : Real.exp zr = ((s0 :: srest).map XFloat.sExp).sum := by
        have h1 := foldl_logaddexp_sExp hFN0 hFNr
        rw [hzr] at h1
        simp only [XFloat.sExp] at h1
        simp only [List.map_cons, List.sum_cons]
        exact h1
      constructor
      · rw [simple_score_all_eq, List.map_map]
        have : ((fun e : XFloat × String × String => (e.2.1, e.2.2)) ∘
            (fun ti : String × String =>
              (XFloat.sub (simpleLookup M f ti.1)
                (logaddexpReduce (cands.map (fun ti2 => simpleLookup M f ti2.1))),
               ti.1, ti.2))) = id := by
          funext ti; rfl
        rw [this, List.map_id]
      · rw [simple_score_all_eq, List.map_map]
        have hcomp : ((fun e : XFloat × String × String => XFloat.exp e.1) ∘
            (fun ti : String × String =>
              (XFloat.sub (simpleLookup M f ti.1)
                (logaddexpReduce (cands.map (fun ti2 => simpleLookup M f ti2.1))),
               ti.1, ti.2))) =
            (fun ti : String × String => XFloat.exp
              (XFloat.sub (simpleLookup M f ti.1) (XFloat.fin zr))) := by
          funext ti
          simp only [Function.comp]
          rw [hzdef, hzr]
        rw [hcomp]
        rw [show (cands.map (fun ti : String × String => XFloat.exp
            (XFloat.sub (simpleLookup M f ti.1) (XFloat.fin zr)))) =
            ((cands.map (fun ti : String × String =>
              XFloat.sub (simpleLookup M f ti.1) (XFloat.fin zr))).map
                XFloat.exp) by rw [List.map_map]; rfl]
        rw [foldl_add_fin_exp (by
          intro y hy
          obtain ⟨ti, -, rfl⟩ := List.mem_map.mp hy
          exact (sub_fin_sExp (simpleLookup_isFN M f ti.1) zr).2)]
        have hmaps : ((cands.map (fun ti : String × String =>
            XFloat.sub (simpleLookup M f ti.1) (XFloat.fin zr))).map
              XFloat.sExp) =
            cands.map (fun ti : String × String =>
              XFloat.sExp (simpleLookup M f ti.1) * (Real.exp zr)⁻¹) := by
          rw [List.map_map]
          apply List.map_congr_left
          intro ti _
          simp only [Function.comp]
          rw [(sub_fin_sExp (simpleLookup_isFN M f ti.1) zr).1, div_eq_mul_inv]
        rw [hmaps, List.sum_map_mul_right]
        have hback : (cands.map (fun ti : String × String =>
            XFloat.sExp (simpleLookup M f ti.1))).sum = Real.exp zr := by
          rw [show (cands.map (fun ti : String × String =>
              XFloat.sExp (simpleLookup M f ti.1))) =
              ((cands.map (fun ti : String × String =>
                simpleLookup M f ti.1)).map XFloat.sExp) by
            rw [List.map_map]; rfl]
          rw [hsc, ← hsumz]
        rw [hback, mul_inv_cancel₀ (Real.exp_ne_zero zr), zero_add]
  · intro r hr
    unfold VectorModel.score_all at hr
    cases hm : cands.mapM (fun ti =>
        (scoreTag V f ti.1).map (fun s => (s, ti.1, ti.2))) with
    | none => rw [hm] at hr; exact absurd hr (by simp)
    | some scored =>
      rw [hm] at hr
      have h3 : scored.map (fun s => (s.1 -
          logaddexpReduceR (scored.map (fun s0 => s0.1)), s.2.1, s.2.2)) = r :=
        Option.some.inj hr
      have hproj : scored.map (fun e => (e.2.1, e.2.2)) = cands := by
        apply mapM_option_map_of _ _ _ _ _ hm
        intro b cc hb
        cases hsb : scoreTag V f b.1 with
        | none => rw [hsb] at hb; exact absurd hb (by simp)
        | some s =>
          rw [hsb] at hb
          have : (s, b.1, b.2) = cc := Option.some.inj hb
          rw [← this]
      constructor
      · rw [← h3, List.map_map]
        rw [show ((fun e : ℝ × String × String => (e.2.1, e.2.2)) ∘
            (fun s : ℝ × String × String => (s.1 -
              logaddexpReduceR (scored.map (fun s0 => s0.1)), s.2.1, s.2.2))) =
            (fun e : ℝ × String × String => (e.2.1, e.2.2)) by
          funext e; rfl]
        exact hproj
      · rcases hsc : scored.map (fun s0 => s0.1) with - | ⟨s0, srest⟩
        · have : scored = [] := List.map_eq_nil_iff.mp hsc
          subst this
          exact absurd (mapM_option_map_of _ (fun e => (e.2.1, e.2.2))
            (by
              intro b cc hb
              cases hsb : scoreTag V f b.1 with
              | none => rw [hsb] at hb; exact absurd hb (by simp)
              | some s =>
                rw [hsb] at hb
                have := Option.some.inj hb
                rw [← this]) _ _ hm).symm (by simpa using hne)
        · have hz : Real.exp (logaddexpReduceR (scored.map (fun s0 => s0.1))) =
              ((scored.map (fun s0 => s0.1)).map Real.exp).sum := by
            rw [hsc, show logaddexpReduceR (s0 :: srest) =
              srest.foldl (fun a b => Real.log (Real.exp a + Real.exp b)) s0
              from rfl, exp_foldl_logaddexpR]
            simp
          rw [← h3, List.map_map]
          rw [show ((fun e : ℝ × String × String => Real.exp e.1) ∘
              (fun s : ℝ × String × String => (s.1 -
                logaddexpReduceR (scored.map (fun s0 => s0.1)), s.2.1, s.2.2))) =
              (fun s : ℝ × String × String => Real.exp s.1 *
                (Real.exp (logaddexpReduceR (scored.map (fun s0 => s0.1))))⁻¹) by
            funext s
            simp only [Function.comp]
            rw [Real.exp_sub, div_eq_mul_inv]]
          rw [show (scored.map (fun s : ℝ × String × String => Real.exp s.1 *
              (Real.exp (logaddexpReduceR (scored.map (fun s0 => s0.1))))⁻¹)) =
              ((scored.map (fun s0 : ℝ × String × String => s0.1)).map
                (fun x : ℝ => Real.exp x *
                  (Real.exp (logaddexpReduceR (scored.map (fun s0 => s0.1))))⁻¹)) by
            rw [List.map_map]; rfl]
          rw [List.sum_map_mul_right, ← hz,
            mul_inv_cancel₀ (Real.exp_ne_zero _)]

/-- Witness for claim C1 (amended): one known-tag candidate for the
monolithic model and one successful factorized call, each on a singleton
candidate list. -/
theorem score_all_sums_witness :
    (([("a", "x")] : List (String × String)) ≠ []) ∧
    (∃ c ∈ ([("a", "x")] : List (String × String)),
      (dlookup ((SimpleModel.mk ["a"] (fun _ => [(0 : ℝ)])).classes.zip
        ((SimpleModel.mk ["a"] (fun _ => [(0 : ℝ)])).logProba [])) c.1).isSome) ∧
    ((SimpleModel.score_all (SimpleModel.mk ["a"] (fun _ => [(0 : ℝ)]))
        [("a", "x")] []).map (fun e => (e.2.1, e.2.2)) = [("a", "x")] ∧
      ((SimpleModel.score_all (SimpleModel.mk ["a"] (fun _ => [(0 : ℝ)]))
        [("a", "x")] []).map (fun e => XFloat.exp e.1)).foldl XFloat.add
          (XFloat.fin 0) = XFloat.fin 1) ∧
    (VectorModel.score_all (VectorModel.mk 1 [none]) [("a", "x")] [] =
      some ((VectorModel.score_all (VectorModel.mk 1 [none])
        [("a", "x")] []).getD [])) ∧
    (((VectorModel.score_all (VectorModel.mk 1 [none]) [("a", "x")] []).getD
        []).map (fun e => (e.2.1, e.2.2)) = [("a", "x")] ∧
      (((VectorModel.score_all (VectorModel.mk 1 [none]) [("a", "x")] []).getD
        []).map (fun e => Real.exp e.1)).sum = 1) := by
  refine ⟨by simp, ⟨("a", "x"), by simp, rfl⟩, ?_, rfl, ?_⟩
  · exact (score_all_sums_to_one (SimpleModel.mk ["a"] (fun _ => [(0 : ℝ)]))
      (VectorModel.mk 1 [none]) [("a", "x")] [] (by simp)).1
      ⟨("a", "x"), by simp, rfl⟩
  · exact (score_all_sums_to_one (SimpleModel.mk ["a"] (fun _ => [(0 : ℝ)]))
      (VectorModel.mk 1 [none]) [("a", "x")] [] (by simp)).2 _ rfl

section OrderLemmas

theorem xflt_asymm {x y : XFloat} (h : xflt x y) : ¬ xflt y x := by
  cases x <;> cases y <;> simp_all [xflt]
  exact h.le

theorem xflt_irrefl {x : XFloat} (h : xflt x x) : False := by
  cases x <;> simp_all [xflt]

theorem xflt_trans {x y z : XFloat} (h1 : xflt x y) (h2 : xflt y z) :
    xflt x z := by
  cases x <;> cases y <;> cases z <;> simp_all [xflt]
  exact lt_trans h1 h2

theorem xflt_of_xflt_xfeq {x y z : XFloat} (h1 : xflt x y) (h2 : xfeq y z) :
    xflt x z := by
  cases x <;> cases y <;> cases z <;> simp_all [xflt, xfeq]

theorem xflt_of_xfeq_xflt {x y z : XFloat} (h1 : xfeq x y) (h2 : xflt y z) :
    xflt x z := by
  cases x <;> cases y <;> cases z <;> simp_all [xflt, xfeq]

theorem xfeq_trans {x y z : XFloat} (h1 : xfeq x y) (h2 : xfeq y z) :
    xfeq x z := by
  cases x <;> cases y <;> cases z <;> simp_all [xfeq]

theorem xflt_trichotomy {x y : XFloat} (hx : x ≠ XFloat.nan)
    (hy : y ≠ XFloat.nan) : xflt x y ∨ x = y ∨ xflt y x := by
  cases x <;> cases y <;> simp_all [xflt]
  exact lt_trichotomy _ _

theorem xfeq_of_eq {x : XFloat} (hx : x ≠ XFloat.nan) : xfeq x x := by
  cases x <;> simp_all [xfeq]

theorem pyLt_asymm {a b : XFloat × String × String} (h : pyLt a b) :
    ¬ pyLt b a := by
  intro h2
  rcases h with hf | ⟨he, hs⟩ <;> rcases h2 with hf2 | ⟨he2, hs2⟩
  · exact xflt_asymm hf hf2
  · exact xflt_irrefl (xflt_of_xflt_xfeq hf he2)
  · exact xflt_irrefl (xflt_of_xflt_xfeq hf2 he)
  · rcases hs with h11 | ⟨h12, h13⟩ <;> rcases hs2 with h21 | ⟨h22, h23⟩
    · exact lt_asymm h11 h21
    · rw [h22] at h11; exact lt_irrefl _ h11
    · rw [h12] at h21; exact lt_irrefl _ h21
    · exact lt_asymm h13 h23

theorem pyLt_trans {a b c : XFloat × String × String} (h1 : pyLt a b)
    (h2 : pyLt b c) : pyLt a c := by
  rcases h1 with hf1 | ⟨he1, hs1⟩ <;> rcases h2 with hf2 | ⟨he2, hs2⟩
  · exact Or.inl (xflt_trans hf1 hf2)
  · exact Or.inl (xflt_of_xflt_xfeq hf1 he2)
  · exact Or.inl (xflt_of_xfeq_xflt he1 hf2)
  · refine Or.inr ⟨xfeq_trans he1 he2, ?_⟩
    rcases hs1 with h11 | ⟨h12, h13⟩ <;> rcases hs2 with h21 | ⟨h22, h23⟩
    · exact Or.inl (lt_trans h11 h21)
    · exact Or.inl (h22 ▸ h11)
    · exact Or.inl (h12 ▸ h21)
    · exact Or.inr ⟨h12.trans h22, lt_trans h13 h23⟩

theorem pyLt_trichotomy {a b : XFloat × String × String}
    (ha : a.1 ≠ XFloat.nan) (hb : b.1 ≠ XFloat.nan) :
    pyLt a b ∨ a = b ∨ pyLt b a := by
  rcases xflt_trichotomy ha hb with h | h | h
  · exact Or.inl (Or.inl h)
  · have hab : xfeq a.1 b.1 := by rw [h]; exact xfeq_of_eq hb
    have hba : xfeq b.1 a.1 := by rw [h]; exact xfeq_of_eq hb
    rcases lt_trichotomy a.2.1 b.2.1 with g | g | g
    · exact Or.inl (Or.inr ⟨hab, Or.inl g⟩)
    · rcases lt_trichotomy a.2.2 b.2.2 with k | k | k
      · exact Or.inl (Or.inr ⟨hab, Or.inr ⟨g, k⟩⟩)
      · refine Or.inr (Or.inl ?_)
        have h1 : a = (a.1, a.2.1, a.2.2) := rfl
        have h2 : b = (b.1, b.2.1, b.2.2) := rfl
        rw [h1, h2, h, g, k]
      · exact Or.inr (Or.inr (Or.inr ⟨hba, Or.inr ⟨g.symm, k⟩⟩))
    · exact Or.inr (Or.inr (Or.inr ⟨hba, Or.inl g⟩))
  · exact Or.inr (Or.inr (Or.inl h))

theorem notPyLt_total (a b : XFloat × String × String) :
    ¬ pyLt a b ∨ ¬ pyLt b a := by
  by_cases h : pyLt a b
  · exact Or.inr (pyLt_asymm h)
  · exact Or.inl h

theorem notPyLt_trans {a b c : XFloat × String × String}
    (ha : a.1 ≠ XFloat.nan) (hb : b.1 ≠ XFloat.nan) (hc : c.1 ≠ XFloat.nan)
    (h1 : ¬ pyLt a b) (h2 : ¬ pyLt b c) : ¬ pyLt a c := by
  intro hac
  rcases pyLt_trichotomy ha hb with h | h | h
  · exact h1 h
  · rw [h] at hac; exact h2 hac
  · rcases pyLt_trichotomy hb hc with g | g | g
    · exact h2 g
    · rw [g] at h; exact pyLt_asymm hac h
    · exact pyLt_asymm hac (pyLt_trans g h)

theorem sorted_orderedInsert_of {α : Type} (r : α → α → Prop) [DecidableRel r]
    (a : α) (l : List α)
    (htot : ∀ b ∈ l, r a b ∨ r b a)
    (htr : ∀ y ∈ l, ∀ z ∈ l, r a y → r y z → r a z)
    (hs : l.Sorted r) : (List.orderedInsert r a l).Sorted r := by
  induction l with
  | nil => simp
  | cons y ys ih =>
    rw [show List.orderedInsert r a (y :: ys) =
      if r a y then a :: y :: ys else y :: List.orderedInsert r a ys from rfl]
    by_cases h : r a y
    · rw [if_pos h, List.sorted_cons]
      refine ⟨?_, hs⟩
      intro z hz
      rcases List.mem_cons.mp hz with hz1 | hz2
      · rw [hz1]; exact h
      · exact htr y (by simp) z (by simp [hz2]) h
          ((List.sorted_cons.mp hs).1 z hz2)
    · rw [if_neg h, List.sorted_cons]
      constructor
      · intro z hz
        rcases (List.mem_orderedInsert r).mp hz with hz1 | hz2
        · rw [hz1]; exact Or.resolve_left (htot y (by simp)) h
        · exact (List.sorted_cons.mp hs).1 z hz2
      · exact ih (fun b hb => htot b (by simp [hb]))
          (fun y2 hy2 z hz => htr y2 (by simp [hy2]) z (by simp [hz]))
          (List.sorted_cons.mp hs).2

theorem sorted_insertionSort_of {α : Type} (r : α → α → Prop) [DecidableRel r]
    (l : List α)
    (htot : ∀ x ∈ l, ∀ y ∈ l, r x y ∨ r y x)
    (htr : ∀ x ∈ l, ∀ y ∈ l, ∀ z ∈ l, r x y → r y z → r x z) :
    (List.insertionSort r l).Sorted r := by
  induction l with
  | nil => simp
  | cons a rest ih =>
    rw [show List.insertionSort r (a :: rest) =
      List.orderedInsert r a (List.insertionSort r rest) from rfl]
    have hperm := List.perm_insertionSort r rest
    apply sorted_orderedInsert_of
    · intro b hb
      exact htot a (by simp) b (by simp [hperm.mem_iff.mp hb])
    · intro y hy z hz hay hyz
      exact htr a (by simp) y (by simp [hperm.mem_iff.mp hy]) z
        (by simp [hperm.mem_iff.mp hz]) hay hyz
    · exact ih (fun x hx y hy => htot x (by simp [hx]) y (by simp [hy]))
        (fun x hx y hy z hz => htr x (by simp [hx]) y (by simp [hy]) z
          (by simp [hz]))

end OrderLemmas

/-- Counterexample for claim C2: two candidates with exactly equal scores
are ranked in reversed input order — the Python sort compares the whole
(score, attribute-string, surface-form) tuples, so the score tie is broken
by the larger attribute string, not by input position: input
[("A","x"), ("B","y")] with equal scores ranks ("B","y") first. -/
theorem rank_tie_counterexample :
    rankCandidates (SimpleModel.score_all (SimpleModel.mk ["A", "B"]
        (fun _ => [(0 : ℝ), 0])) [("A", "x"), ("B", "y")] []) =
      [(XFloat.fin (0 - Real.log (Real.exp 0 + Real.exp 0)), "B", "y"),
       (XFloat.fin (0 - Real.log (Real.exp 0 + Real.exp 0)), "A", "x")] := by
  have hs : SimpleModel.score_all (SimpleModel.mk ["A", "B"]
      (fun _ => [(0 : ℝ), 0])) [("A", "x"), ("B", "y")] [] =
      [(XFloat.fin (0 - Real.log (Real.exp 0 + Real.exp 0)), "A", "x"),
       (XFloat.fin (0 - Real.log (Real.exp 0 + Real.exp 0)), "B", "y")] := rfl
  rw [rankCandidates, hs]
  rw [show List.insertionSort (fun a b => ¬ pyLt a b)
      [(XFloat.fin (0 - Real.log (Real.exp 0 + Real.exp 0)), "A", "x"),
       (XFloat.fin (0 - Real.log (Real.exp 0 + Real.exp 0)), "B", "y")] =
      List.orderedInsert (fun a b => ¬ pyLt a b)
        (XFloat.fin (0 - Real.log (Real.exp 0 + Real.exp 0)), "A", "x")
        [(XFloat.fin (0 - Real.log (Real.exp 0 + Real.exp 0)), "B", "y")]
      from rfl]
  rw [show List.orderedInsert (fun a b => ¬ pyLt a b)
      (XFloat.fin (0 - Real.log (Real.exp 0 + Real.exp 0)), "A", "x")
      [(XFloat.fin (0 - Real.log (Real.exp 0 + Real.exp 0)), "B", "y")] =
      if (fun a b => ¬ pyLt a b)
          (XFloat.fin (0 - Real.log (Real.exp 0 + Real.exp 0)), "A", "x")
          (XFloat.fin (0 - Real.log (Real.exp 0 + Real.exp 0)), "B", "y") then
        [(XFloat.fin (0 - Real.log (Real.exp 0 + Real.exp 0)), "A", "x"),
         (XFloat.fin (0 - Real.log (Real.exp 0 + Real.exp 0)), "B", "y")]
      else
        [(XFloat.fin (0 - Real.log (Real.exp 0 + Real.exp 0)), "B", "y"),
         (XFloat.fin (0 - Real.log (Real.exp 0 + Real.exp 0)), "A", "x")]
      from rfl]
  rw [if_neg]
  intro hnot
  apply hnot
  refine Or.inr ⟨rfl, Or.inl ?_⟩
  show ("A" : String) < "B"
  rw [String.lt_iff_toList_lt]
  decide

/-- Claim C2 (amended): the evaluator's ranking step sorts the whole
(score, attribute-string, surface-form) tuples descending — it is a
permutation of the scored list in which, pairwise, no later entry is
tuple-greater than an earlier one; equal scores are therefore ordered by
descending attribute-string then surface-form (entries identical in all
three fields are interchangeable), not by stable input position.  NaN
scores are excluded (Python comparisons with NaN are not an order). -/
theorem rank_descending_by_tuple (scored : List (XFloat × String × String))
    (hnn : ∀ e ∈ scored, e.1 ≠ XFloat.nan) :
    (rankCandidates scored).Perm scored ∧
    (rankCandidates scored).Sorted (fun a b => ¬ pyLt a b) := by
  constructor
  · exact List.perm_insertionSort _ scored
  · apply sorted_insertionSort_of
    · intro x _ y _
      exact notPyLt_total x y
    · intro x hx y hy z hz
      exact notPyLt_trans (hnn x hx) (hnn y hy) (hnn z hz)

/-- Witness for claim C2 (amended): a concrete two-entry NaN-free scored
list. -/
theorem rank_descending_witness :
    (∀ e ∈ [((XFloat.fin 1 : XFloat), "b", "c"), (XFloat.ninf, "a", "d")],
      e.1 ≠ XFloat.nan) ∧
    ((rankCandidates [((XFloat.fin 1 : XFloat), "b", "c"),
        (XFloat.ninf, "a", "d")]).Perm
      [((XFloat.fin 1 : XFloat), "b", "c"), (XFloat.ninf, "a", "d")] ∧
    (rankCandidates [((XFloat.fin 1 : XFloat), "b", "c"),
        (XFloat.ninf, "a", "d")]).Sorted (fun a b => ¬ pyLt a b)) := by
  have hnn : ∀ e ∈ [((XFloat.fin 1 : XFloat), "b", "c"),
      (XFloat.ninf, "a", "d")], e.1 ≠ XFloat.nan := by
    intro e he
    rcases List.mem_cons.mp he with h | h
    · rw [h]; intro hx; exact XFloat.noConfusion hx
    · rcases List.mem_cons.mp h with h2 | h2
      · rw [h2]; intro hx; exact XFloat.noConfusion hx
      · simp at h2
  exact ⟨hnn, rank_descending_by_tuple _ hnn⟩

section SinglePositionLemmas

theorem mapM_option_forall_some {β γ : Type} (g : β → Option γ) (l : List β)
    (l2 : List γ) (h : l.mapM g = some l2) :
    ∀ b ∈ l, ∃ c, g b = some c := by
  induction l generalizing l2 with
  | nil => intro b hb; simp at hb
  | cons a rest ih =>
    rw [mapM_option_cons] at h
    cases hg : g a with
    | none => rw [hg] at h; exact absurd h (by simp)
    | some c =>
      rw [hg] at h
      cases hrest : rest.mapM g with
      | none => rw [hrest] at h; exact absurd h (by simp)
      | some cs =>
        intro b hb
        rcases List.mem_cons.mp hb with h1 | h1
        · exact ⟨c, h1 ▸ hg⟩
        · exact ih cs hrest b h1

theorem mem_enum_get {α : Type} (l : List α) (i : ℕ) (h : i < l.length) :
    (i, l.get ⟨i, h⟩) ∈ l.enum := by
  have h2 : i < l.enum.length := by simp [h]
  have h3 : l.enum.get ⟨i, h2⟩ = (i, l.get ⟨i, h⟩) := by
    simp [List.getElem_enum]
  rw [← h3]
  exact List.get_mem _ _ _

theorem mapM_sum_zero (g : ℕ × Char → Option ℝ) (l : List (ℕ × Char))
    (ys : List ℝ) (hm : l.mapM g = some ys)
    (hz : ∀ qv ∈ l, g qv = some 0) : ys.sum = 0 := by
  induction l generalizing ys with
  | nil => rw [List.mapM_nil] at hm; cases hm; rfl
  | cons a rest ih =>
    rw [mapM_option_cons] at hm
    cases hg : g a with
    | none => rw [hg] at hm; exact absurd hm (by simp)
    | some y =>
      rw [hg] at hm
      cases hrest : rest.mapM g with
      | none => rw [hrest] at hm; exact absurd hm (by simp)
      | some ys2 =>
        rw [hrest] at hm
        have hys : y :: ys2 = ys := Option.some.inj hm
        have hy : y = 0 :=
          (Option.some.inj ((hz a (by simp)).symm.trans hg)).symm
        have hz2 : ys2.sum = 0 :=
          ih ys2 hrest (fun qv hqv => hz qv (by simp [hqv]))
        rw [← hys, List.sum_cons, hy, hz2, add_zero]

theorem mapM_sum_single (g : ℕ × Char → Option ℝ) (l : List (ℕ × Char))
    (p : ℕ) (ys : List ℝ) (hm : l.mapM g = some ys)
    (hz : ∀ qv ∈ l, qv.1 ≠ p → g qv = some 0)
    (hcount : (l.map Prod.fst).count p = 1)
    (c : Char) (hpc : (p, c) ∈ l) (vp : ℝ) (hgp : g (p, c) = some vp) :
    ys.sum = vp := by
  induction l generalizing ys with
  | nil => simp at hpc
  | cons a rest ih =>
    rw [mapM_option_cons] at hm
    cases hg : g a with
    | none => rw [hg] at hm; exact absurd hm (by simp)
    | some y =>
      rw [hg] at hm
      cases hrest : rest.mapM g with
      | none => rw [hrest] at hm; exact absurd hm (by simp)
      | some ys2 =>
        rw [hrest] at hm
        have hys : y :: ys2 = ys := Option.some.inj hm
        by_cases hq : a.1 = p
        · have hcnt : (rest.map Prod.fst).count p = 0 := by
            rw [List.map_cons, hq, List.count_cons_self] at hcount
            omega
          have hnot : ∀ qv ∈ rest, qv.1 ≠ p := by
            intro qv hqv hqp
            have hmm : p ∈ rest.map Prod.fst := List.mem_map.mpr ⟨qv, hqv, hqp⟩
            exact absurd hmm (List.count_eq_zero.mp hcnt)
          have hac : a = (p, c) := by
            rcases List.mem_cons.mp hpc with h1 | h1
            · exact h1.symm
            · exact absurd rfl (hnot _ h1)
          have hy : y = vp := by
            rw [hac] at hg
            exact Option.some.inj (hg.symm.trans hgp)
          have hz2 : ys2.sum = 0 := mapM_sum_zero g rest ys2 hrest
            (fun qv hqv => hz qv (by simp [hqv]) (hnot qv hqv))
          rw [← hys, List.sum_cons, hy, hz2, add_zero]
        · have hy : y = 0 :=
            (Option.some.inj ((hz a (by simp) hq).symm.trans hg)).symm
          have hpc2 : (p, c) ∈ rest := by
            rcases List.mem_cons.mp hpc with h1 | h1
            · rw [← h1] at hq; simp at hq
            · exact h1
          have hcnt : (rest.map Prod.fst).count p = 1 := by
            rw [List.map_cons, List.count_cons_of_ne (fun hh => hq hh.symm)]
              at hcount
            exact hcount
          have hs2 := ih ys2 hrest
            (fun qv hqv hqp => hz qv (by simp [hqv]) hqp) hcnt hpc2
          rw [← hys, List.sum_cons, hy, hs2, zero_add]

theorem ljust_le_length (s : String) (L : ℕ) : L ≤ (ljust s L).length := by
  simp [ljust]
  omega

theorem scoreTag_single_pos (V : VectorModel) (f : Feat) (p : ℕ)
    (hother : ∀ q, q < V.clfs.length → q ≠ p → V.clfs.get? q = some none)
    (hpL : p < V.tagLength) (attrs : String) (s : ℝ)
    (hs : scoreTag V f attrs = some s) :
    posVal V f p attrs = some s := by
  unfold scoreTag at hs
  cases hm : ((ljust attrs V.tagLength).enum.mapM
      (fun iv => posScore V.clfs f iv.1 iv.2)) with
  | none => rw [hm] at hs; exact absurd hs (by simp)
  | some ys =>
    rw [hm] at hs
    have hsum : ys.sum = s := Option.some.inj hs
    have hplen : p < (ljust attrs V.tagLength).length :=
      lt_of_lt_of_le hpL (ljust_le_length attrs V.tagLength)
    have hcmem : (p, (ljust attrs V.tagLength).get ⟨p, hplen⟩) ∈
        (ljust attrs V.tagLength).enum := mem_enum_get _ p hplen
    have hallsome := mapM_option_forall_some _ _ _ hm
    have hz : ∀ qv ∈ (ljust attrs V.tagLength).enum, qv.1 ≠ p →
        posScore V.clfs f qv.1 qv.2 = some 0 := by
      intro qv hqv hne
      obtain ⟨val, hval⟩ := hallsome qv hqv
      unfold posScore at hval ⊢
      cases hcq : V.clfs.get? qv.1 with
      | none => rw [hcq] at hval; exact absurd hval (by simp)
      | some o =>
        cases o with
        | none => rfl
        | some clf =>
          have hlt : qv.1 < V.clfs.length := (List.get?_eq_some.mp hcq).1
          rw [hother qv.1 hlt hne] at hcq
          exact absurd (Option.some.inj hcq) (by simp)
    have hcount : ((ljust attrs V.tagLength).enum.map Prod.fst).count p = 1 := by
      rw [List.enum_map_fst]
      exact List.count_eq_one_of_mem (List.nodup_range _)
        (List.mem_range.mpr hplen)
    obtain ⟨vp, hvp⟩ := hallsome _ hcmem
    have hvs : ys.sum = vp :=
      mapM_sum_single _ _ p ys hm hz hcount _ hcmem vp hvp
    unfold posVal
    have hgetd : (ljust attrs V.tagLength).getD p '-' =
        (ljust attrs V.tagLength).get ⟨p, hplen⟩ := by
      rw [List.getD_eq_getElem _ _ hplen]
      simp
    rw [hgetd, hvp]
    exact congrArg some (hvs.symm.trans hsum)

end SinglePositionLemmas

/-- Claim C9: a factorized model with exactly one position classifier that
is not None (position p; every other position contributes 0) induces, on
any candidate list it scores successfully, exactly the ranking of position
p's log-probabilities alone: for any two returned entries, the returned
scores compare exactly as the two candidates' position-p
log-probabilities. -/
theorem single_position_ranking (V : VectorModel) (f : Feat) (p : ℕ)
    (clf : PosClf) (_hp : V.clfs.get? p = some (some clf))
    (hother : ∀ q, q < V.clfs.length → q ≠ p → V.clfs.get? q = some none)
    (hpL : p < V.tagLength) (cands : List (String × String))
    (r : List (ℝ × String × String)) (hr : V.score_all cands f = some r)
    (i j : ℕ) (ci cj : String × String) (si sj : ℝ × String × String)
    (hci : cands.get? i = some ci) (hcj : cands.get? j = some cj)
    (hsi : r.get? i = some si) (hsj : r.get? j = some sj)
    (vi vj : ℝ) (hvi : posVal V f p ci.1 = some vi)
    (hvj : posVal V f p cj.1 = some vj) :
    si.1 ≤ sj.1 ↔ vi ≤ vj := by
  unfold VectorModel.score_all at hr
  cases hm : cands.mapM (fun ti =>
      (scoreTag V f ti.1).map (fun s => (s, ti.1, ti.2))) with
  | none => rw [hm] at hr; exact absurd hr (by simp)
  | some scored =>
    rw [hm] at hr
    have h3 : scored.map (fun s => (s.1 -
        logaddexpReduceR (scored.map (fun s0 => s0.1)), s.2.1, s.2.2)) = r :=
      Option.some.inj hr
    have hscorei : ∃ ti, scored.get? i = some ti ∧
        (scoreTag V f ci.1).map (fun s => (s, ci.1, ci.2)) = some ti :=
      mapM_option_get _ _ _ hm i ci hci
    have hscorej : ∃ tj, scored.get? j = some tj ∧
        (scoreTag V f cj.1).map (fun s => (s, cj.1, cj.2)) = some tj :=
      mapM_option_get _ _ _ hm j cj hcj
    obtain ⟨ti, hti, hgi⟩ := hscorei
    obtain ⟨tj, htj, hgj⟩ := hscorej
    cases hsti : scoreTag V f ci.1 with
    | none => rw [hsti] at hgi; exact absurd hgi (by simp)
    | some wi =>
      cases hstj : scoreTag V f cj.1 with
      | none => rw [hstj] at hgj; exact absurd hgj (by simp)
      | some wj =>
        rw [hsti] at hgi
        rw [hstj] at hgj
        have hti2 : ti = (wi, ci.1, ci.2) := (Option.some.inj hgi).symm
        have htj2 : tj = (wj, cj.1, cj.2) := (Option.some.inj hgj).symm
        have hwi : vi = wi := by
          have := scoreTag_single_pos V f p hother hpL ci.1 wi hsti
          exact Option.some.inj (hvi.symm.trans this)
        have hwj : vj = wj := by
          have := scoreTag_single_pos V f p hother hpL cj.1 wj hstj
          exact Option.some.inj (hvj.symm.trans this)
        have hri : r.get? i = some ((fun s : ℝ × String × String => (s.1 -
            logaddexpReduceR (scored.map (fun s0 => s0.1)), s.2.1, s.2.2)) ti) := by
          rw [← h3, List.get?_map, hti]
          rfl
        have hrj : r.get? j = some ((fun s : ℝ × String × String => (s.1 -
            logaddexpReduceR (scored.map (fun s0 => s0.1)), s.2.1, s.2.2)) tj) := by
          rw [← h3, List.get?_map, htj]
          rfl
        have hsi2 : si = (wi - logaddexpReduceR (scored.map (fun s0 => s0.1)),
            ci.1, ci.2) := by
          have := Option.some.inj (hsi.symm.trans hri)
          rw [this, hti2]
        have hsj2 : sj = (wj - logaddexpReduceR (scored.map (fun s0 => s0.1)),
            cj.1, cj.2) := by
          have := Option.some.inj (hsj.symm.trans hrj)
          rw [this, htj2]
        rw [hsi2, hsj2, hwi, hwj]
        exact sub_le_sub_iff_right _

/-- Witness for claim C9: a concrete one-active-position factorized model
on two candidates. -/
theorem single_position_ranking_witness :
    ((VectorModel.mk 1 [some (PosClf.mk ['a', 'b'] (fun _ => [(0 : ℝ), 1]))]).clfs.get? 0 =
      some (some (PosClf.mk ['a', 'b'] (fun _ => [(0 : ℝ), 1]))) ∧
    (0 : ℕ) < (VectorModel.mk 1 [some (PosClf.mk ['a', 'b']
      (fun _ => [(0 : ℝ), 1]))]).tagLength) ∧
    (((VectorModel.mk 1 [some (PosClf.mk ['a', 'b'] (fun _ => [(0 : ℝ), 1]))]).score_all
        [("a", "x"), ("b", "y")] [] =
      some (((VectorModel.mk 1 [some (PosClf.mk ['a', 'b']
        (fun _ => [(0 : ℝ), 1]))]).score_all [("a", "x"), ("b", "y")] []).getD [])) ∧
    ((((VectorModel.mk 1 [some (PosClf.mk ['a', 'b'] (fun _ => [(0 : ℝ), 1]))]).score_all
        [("a", "x"), ("b", "y")] []).getD []).get? 0 =
      some ((((((VectorModel.mk 1 [some (PosClf.mk ['a', 'b']
        (fun _ => [(0 : ℝ), 1]))]).score_all [("a", "x"), ("b", "y")] []).getD
          []).get? 0)).getD (0, "", "")))) ∧
    ((((((VectorModel.mk 1 [some (PosClf.mk ['a', 'b']
        (fun _ => [(0 : ℝ), 1]))]).score_all [("a", "x"), ("b", "y")] []).getD
          []).get? 0).getD (0, "", "")).1 ≤
      (((((VectorModel.mk 1 [some (PosClf.mk ['a', 'b']
        (fun _ => [(0 : ℝ), 1]))]).score_all [("a", "x"), ("b", "y")] []).getD
          []).get? 1).getD (0, "", "")).1 ↔
      ((posVal (VectorModel.mk 1 [some (PosClf.mk ['a', 'b']
        (fun _ => [(0 : ℝ), 1]))]) [] 0 "a").getD 0 ≤
       (posVal (VectorModel.mk 1 [some (PosClf.mk ['a', 'b']
        (fun _ => [(0 : ℝ), 1]))]) [] 0 "b").getD 0)) := by
  refine ⟨⟨rfl, by decide⟩, ⟨rfl, rfl⟩, ?_⟩
  exact single_position_ranking
    (VectorModel.mk 1 [some (PosClf.mk ['a', 'b'] (fun _ => [(0 : ℝ), 1]))])
    [] 0 (PosClf.mk ['a', 'b'] (fun _ => [(0 : ℝ), 1])) rfl
    (by intro q hq hne; simp at hq; exact absurd hq hne)
    (by decide) [("a", "x"), ("b", "y")] _ rfl 0 1 ("a", "x") ("b", "y") _ _
    rfl rfl rfl rfl _ _ rfl rfl

section PoolInvariantLemmas

theorem enumFrom_filter_snd_length {α : Type} (pb : α → Bool) (l : List α)
    (n : ℕ) :
    ((l.enumFrom n).filter (fun ia => pb ia.2)).length = l.countP pb := by
  induction l generalizing n with
  | nil => rfl
  | cons a rest ih =>
    rw [show (a :: rest).enumFrom n = (n, a) :: rest.enumFrom (n + 1) from rfl,
      List.filter_cons, List.countP_cons]
    by_cases hp : pb a
    · simp only [hp, if_true, List.length_cons, ih (n + 1)]
    · simp only [hp, Bool.false_eq_true, if_false, ih (n + 1)]
      omega

theorem star_mem_bound {possible : List (String × String)} {attrs : String}
    {i0 : ℕ}
    (h : i0 ∈ (possible.enum.filter
      (fun ia => decide (ia.2.1 = attrs))).map (fun ia => ia.1)) :
    i0 < possible.length := by
  obtain ⟨x, hx, hfst⟩ := List.mem_map.mp h
  have hx2 : x ∈ possible.enumFrom 0 := List.mem_of_mem_filter hx
  have hlt := List.fst_lt_add_of_mem_enumFrom hx2
  omega

theorem enum_filter_attrs_length (possible : List (String × String))
    (attrs : String) :
    ((possible.enum.filter (fun ia => decide (ia.2.1 = attrs)))).length =
      possible.countP (fun av => decide (av.1 = attrs)) :=
  enumFrom_filter_snd_length (fun av => decide (av.1 = attrs)) possible 0

theorem poolStep_inv (revMap : RevMap) (getAttributes : GetAttributes)
    (st : PoolState) (inst : Word × Feat)
    (hgold : (dlookupD revMap (inst.1.lem, inst.1.tag.cat) []).countP
      (fun av => decide (av.1 = inst.1.tag.attrs)) ≤ 1)
    (hA : st.X.length = st.Y_lim.length)
    (hB : st.Y_star.length = st.X.length)
    (hC : ∀ key r, dlookup st.lims key = some r →
      r.2 - r.1 = (dlookupD revMap key []).length)
    (hD : ∀ k (hk : k < st.Y_star.length) (hl : k < st.Y_lim.length),
      st.Y_star.get ⟨k, hk⟩ <
        (st.Y_lim.get ⟨k, hl⟩).2 - (st.Y_lim.get ⟨k, hl⟩).1) :
    (poolStep revMap getAttributes st inst).X.length =
      (poolStep revMap getAttributes st inst).Y_lim.length ∧
    (poolStep revMap getAttributes st inst).Y_star.length =
      (poolStep revMap getAttributes st inst).X.length ∧
    (∀ key r, dlookup (poolStep revMap getAttributes st inst).lims key = some r →
      r.2 - r.1 = (dlookupD revMap key []).length) ∧
    (∀ k (hk : k < (poolStep revMap getAttributes st inst).Y_star.length)
      (hl : k < (poolStep revMap getAttributes st inst).Y_lim.length),
      (poolStep revMap getAttributes st inst).Y_star.get ⟨k, hk⟩ <
        ((poolStep revMap getAttributes st inst).Y_lim.get ⟨k, hl⟩).2 -
        ((poolStep revMap getAttributes st inst).Y_lim.get ⟨k, hl⟩).1) := by
  by_cases hkeep : poolKeep revMap inst
  · unfold poolKeep at hkeep
    simp only [Bool.and_eq_true, Bool.not_eq_true', beq_eq_false_iff_ne, ne_eq,
      decide_eq_true_eq] at hkeep
    obtain ⟨hlen, hmem⟩ := hkeep
    have hcnt : (dlookupD revMap (inst.1.lem, inst.1.tag.cat) []).countP
        (fun av => decide (av.1 = inst.1.tag.attrs)) = 1 := by
      refine le_antisymm hgold ?_
      exact List.countP_pos_iff.mpr
        ⟨(inst.1.tag.attrs, inst.1.inflection), hmem, by simp⟩
    have hstars : (((dlookupD revMap (inst.1.lem, inst.1.tag.cat) []).enum.filter
        (fun ia => decide (ia.2.1 = inst.1.tag.attrs))).map
          (fun ia => ia.1)).length = 1 := by
      rw [List.length_map, enum_filter_attrs_length]
      exact hcnt
    obtain ⟨i0, hi0⟩ := List.length_eq_one.mp hstars
    have hi0lt : i0 < (dlookupD revMap (inst.1.lem, inst.1.tag.cat) []).length :=
      star_mem_bound (by rw [hi0]; exact List.mem_singleton_self i0)
    unfold poolStep
    rw [if_neg hlen, if_pos hmem, hi0]
    cases hc : dlookup st.lims (inst.1.lem, inst.1.tag.cat) with
    | some r =>
      refine ⟨by simp [hA], by simp [hB], fun key r2 hr2 => hC key r2 hr2, ?_⟩
      intro k hk hl
      have hk2 : k < st.Y_star.length + 1 := by simpa using hk
      have hl2 : k < st.Y_lim.length + 1 := by simpa using hl
      show (st.Y_star ++ [i0]).get ⟨k, hk⟩ <
        ((st.Y_lim ++ [r]).get ⟨k, hl⟩).2 - ((st.Y_lim ++ [r]).get ⟨k, hl⟩).1
      by_cases hko : k < st.Y_star.length
      · have hlo : k < st.Y_lim.length := by rw [← hA, ← hB]; exact hko
        rw [List.get_append k hko, List.get_append k hlo]
        exact hD k hko hlo
      · have hke : k = st.Y_star.length := by omega
        have hkl : k = st.Y_lim.length := by rw [← hA, ← hB]; exact hke
        have hstar_eq : (st.Y_star ++ [i0]).get ⟨k, hk⟩ = i0 := by
          rw [List.get_eq_getElem]
          exact List.getElem_concat_length st.Y_star i0 k hke _
        have hlim_eq : (st.Y_lim ++ [r]).get ⟨k, hl⟩ = r := by
          rw [List.get_eq_getElem]
          exact List.getElem_concat_length st.Y_lim r k hkl _
        rw [hstar_eq, hlim_eq, hC _ r hc]
        exact hi0lt
    | none =>
      refine ⟨by simp [hA], by simp [hB], ?_, ?_⟩
      · intro key r2 hr2
        have hr3 : dlookup (dictAssign st.lims (inst.1.lem, inst.1.tag.cat)
            (st.n, st.n + (dlookupD revMap (inst.1.lem, inst.1.tag.cat)
              []).length)) key = some r2 := hr2
        rw [dlookup_dictAssign] at hr3
        by_cases hkey : key = (inst.1.lem, inst.1.tag.cat)
        · rw [if_pos hkey] at hr3
          have := Option.some.inj hr3
          rw [← this, hkey]
          exact Nat.add_sub_cancel_left st.n
            ((dlookupD revMap (inst.1.lem, inst.1.tag.cat) []).length)
        · rw [if_neg hkey] at hr3
          exact hC key r2 hr3
      · intro k hk hl
        have hk2 : k < st.Y_star.length + 1 := by simpa using hk
        have hl2 : k < st.Y_lim.length + 1 := by simpa using hl
        show (st.Y_star ++ [i0]).get ⟨k, hk⟩ <
          ((st.Y_lim ++ [(st.n, st.n + (dlookupD revMap
            (inst.1.lem, inst.1.tag.cat) []).length)]).get ⟨k, hl⟩).2 -
          ((st.Y_lim ++ [(st.n, st.n + (dlookupD revMap
            (inst.1.lem, inst.1.tag.cat) []).length)]).get ⟨k, hl⟩).1
        by_cases hko : k < st.Y_star.length
        · have hlo : k < st.Y_lim.length := by rw [← hA, ← hB]; exact hko
          rw [List.get_append k hko, List.get_append k hlo]
          exact hD k hko hlo
        · have hke : k = st.Y_star.length := by omega
          have hkl : k = st.Y_lim.length := by rw [← hA, ← hB]; exact hke
          have hstar_eq : (st.Y_star ++ [i0]).get ⟨k, hk⟩ = i0 := by
            rw [List.get_eq_getElem]
            exact List.getElem_concat_length st.Y_star i0 k hke _
          have hlim_eq : (st.Y_lim ++ [(st.n, st.n + (dlookupD revMap
              (inst.1.lem, inst.1.tag.cat) []).length)]).get ⟨k, hl⟩ =
              (st.n, st.n + (dlookupD revMap
                (inst.1.lem, inst.1.tag.cat) []).length) := by
            rw [List.get_eq_getElem]
            exact List.getElem_concat_length st.Y_lim _ k hkl _
          rw [hstar_eq, hlim_eq]
          simpa using hi0lt
  · simp only [Bool.not_eq_true] at hkeep
    rw [poolStep_skip revMap getAttributes st inst hkeep]
    exact ⟨hA, hB, hC, hD⟩

theorem foldl_poolStep_inv (revMap : RevMap) (getAttributes : GetAttributes)
    (insts : List (Word × Feat)) (st : PoolState)
    (hgold : ∀ inst ∈ insts,
      (dlookupD revMap (inst.1.lem, inst.1.tag.cat) []).countP
        (fun av => decide (av.1 = inst.1.tag.attrs)) ≤ 1)
    (hA : st.X.length = st.Y_lim.length)
    (hB : st.Y_star.length = st.X.length)
    (hC : ∀ key r, dlookup st.lims key = some r →
      r.2 - r.1 = (dlookupD revMap key []).length)
    (hD : ∀ k (hk : k < st.Y_star.length) (hl : k < st.Y_lim.length),
      st.Y_star.get ⟨k, hk⟩ <
        (st.Y_lim.get ⟨k, hl⟩).2 - (st.Y_lim.get ⟨k, hl⟩).1) :
    (insts.foldl (poolStep revMap getAttributes) st).X.length =
      (insts.foldl (poolStep revMap getAttributes) st).Y_lim.length ∧
    (insts.foldl (poolStep revMap getAttributes) st).Y_star.length =
      (insts.foldl (poolStep revMap getAttributes) st).X.length ∧
    ∀ k (hk : k < (insts.foldl (poolStep revMap getAttributes) st).Y_star.length)
      (hl : k < (insts.foldl (poolStep revMap getAttributes) st).Y_lim.length),
      (insts.foldl (poolStep revMap getAttributes) st).Y_star.get ⟨k, hk⟩ <
        ((insts.foldl (poolStep revMap getAttributes) st).Y_lim.get ⟨k, hl⟩).2 -
        ((insts.foldl (poolStep revMap getAttributes) st).Y_lim.get ⟨k, hl⟩).1 := by
  induction insts generalizing st with
  | nil => exact ⟨hA, hB, hD⟩
  | cons i rest ih =>
    have hstep := poolStep_inv revMap getAttributes st i
      (hgold i (by simp)) hA hB hC hD
    simp only [List.foldl_cons]
    exact ih (poolStep revMap getAttributes st i)
      (fun j hj => hgold j (by simp [hj]))
      hstep.1 hstep.2.1 hstep.2.2.1 hstep.2.2.2

end PoolInvariantLemmas

/-- Claim C10: when each processed instance's candidate list contains its
gold attribute-string at most once, the completed pool has X, Y_lim and
Y_star of equal length, and every recorded gold index lies inside its
instance's recorded (start, end) range: Y_star[k] < Y_lim[k].2 −
Y_lim[k].1. -/
theorem runPool_star_in_range (revMap : RevMap)
    (getAttributes : GetAttributes) (insts : List (Word × Feat))
    (hgold : ∀ inst ∈ insts,
      (dlookupD revMap (inst.1.lem, inst.1.tag.cat) []).countP
        (fun av => decide (av.1 = inst.1.tag.attrs)) ≤ 1) :
    (runPool revMap getAttributes insts).X.length =
      (runPool revMap getAttributes insts).Y_lim.length ∧
    (runPool revMap getAttributes insts).Y_star.length =
      (runPool revMap getAttributes insts).X.length ∧
    ∀ k (hk : k < (runPool revMap getAttributes insts).Y_star.length)
      (hl : k < (runPool revMap getAttributes insts).Y_lim.length),
      (runPool revMap getAttributes insts).Y_star.get ⟨k, hk⟩ <
        ((runPool revMap getAttributes insts).Y_lim.get ⟨k, hl⟩).2 -
        ((runPool revMap getAttributes insts).Y_lim.get ⟨k, hl⟩).1 := by
  unfold runPool
  exact foldl_poolStep_inv revMap getAttributes insts poolInit hgold rfl rfl
    (fun key r hr => absurd hr (by simp [poolInit, dlookup_nil]))
    (fun k hk hl => absurd hk (by simp [poolInit]))

/-- Witness for claim C10: one concrete instance whose two-candidate group
contains its gold attribute string once. -/
theorem runPool_star_in_range_witness :
    (∀ inst ∈ [(Word.mk "dogs" "dog" (Tag.mk 'N' "P"),
        ([] : Feat))],
      (dlookupD [(("dog", 'N'), [("S", "dog"), ("P", "dogs")])]
        (inst.1.lem, inst.1.tag.cat) []).countP
        (fun av => decide (av.1 = inst.1.tag.attrs)) ≤ 1) ∧
    ((runPool [(("dog", 'N'), [("S", "dog"), ("P", "dogs")])] (fun _ a => [a])
        [(Word.mk "dogs" "dog" (Tag.mk 'N' "P"), [])]).X.length =
      (runPool [(("dog", 'N'), [("S", "dog"), ("P", "dogs")])] (fun _ a => [a])
        [(Word.mk "dogs" "dog" (Tag.mk 'N' "P"), [])]).Y_lim.length ∧
    (runPool [(("dog", 'N'), [("S", "dog"), ("P", "dogs")])] (fun _ a => [a])
        [(Word.mk "dogs" "dog" (Tag.mk 'N' "P"), [])]).Y_star.length =
      (runPool [(("dog", 'N'), [("S", "dog"), ("P", "dogs")])] (fun _ a => [a])
        [(Word.mk "dogs" "dog" (Tag.mk 'N' "P"), [])]).X.length ∧
    ∀ k (hk : k < (runPool [(("dog", 'N'), [("S", "dog"), ("P", "dogs")])]
        (fun _ a => [a])
        [(Word.mk "dogs" "dog" (Tag.mk 'N' "P"), [])]).Y_star.length)
      (hl : k < (runPool [(("dog", 'N'), [("S", "dog"), ("P", "dogs")])]
        (fun _ a => [a])
        [(Word.mk "dogs" "dog" (Tag.mk 'N' "P"), [])]).Y_lim.length),
      (runPool [(("dog", 'N'), [("S", "dog"), ("P", "dogs")])] (fun _ a => [a])
        [(Word.mk "dogs" "dog" (Tag.mk 'N' "P"), [])]).Y_star.get ⟨k, hk⟩ <
        ((runPool [(("dog", 'N'), [("S", "dog"), ("P", "dogs")])]
          (fun _ a => [a])
          [(Word.mk "dogs" "dog" (Tag.mk 'N' "P"), [])]).Y_lim.get ⟨k, hl⟩).2 -
        ((runPool [(("dog", 'N'), [("S", "dog"), ("P", "dogs")])]
          (fun _ a => [a])
          [(Word.mk "dogs" "dog" (Tag.mk 'N' "P"), [])]).Y_lim.get ⟨k, hl⟩).1) :=
  ⟨by decide,
    runPool_star_in_range [(("dog", 'N'), [("S", "dog"), ("P", "dogs")])]
      (fun _ a => [a]) [(Word.mk "dogs" "dog" (Tag.mk 'N' "P"), [])]
      (by decide)⟩

section EvaluatorLemmas

theorem foldlM_evalStep_stats (revMap : RevMap) (models : List (Char × Model))
    (c : Char) (model : Model) (hm : dlookup models c = some model)
    (insts : List (Word × Feat)) (st0 st : Char → StatsRec)
    (hok : insts.foldlM (evalStep revMap models) st0 = Except.ok st) :
    (st c).n = (st0 c).n + (keptInstances revMap c insts).length ∧
    (st c).rr = (st0 c).rr + ((keptInstances revMap c insts).map (fun wf =>
      1 / ((instOutcomeD model revMap wf).1 : ℝ))).sum ∧
    (st c).correct = (st0 c).correct + ((keptInstances revMap c insts).map
      (fun wf => instOutcomeD model revMap wf)).countP (fun o => o.2.1) ∧
    (st c).logprob = ((keptInstances revMap c insts).map (fun wf =>
      (instOutcomeD model revMap wf).2.2)).foldl XFloat.add ((st0 c).logprob) := by
  induction insts generalizing st0 with
  | nil =>
    have hst : st0 = st := Except.ok.inj hok
    subst hst
    simp [keptInstances]
  | cons i rest ih =>
    rw [show ((i :: rest).foldlM (evalStep revMap models) st0) =
      (evalStep revMap models st0 i) >>= (fun b2 =>
        rest.foldlM (evalStep revMap models) b2) from rfl] at hok
    by_cases hmem : (i.1.tag.attrs, i.1.inflection) ∈
        dlookupD revMap (i.1.lem, i.1.tag.cat) []
    · cases hlook : dlookup models i.1.tag.cat with
      | none =>
        have hstep : evalStep revMap models st0 i = Except.error () := by
          unfold evalStep
          rw [if_pos hmem, hlook]
        rw [hstep] at hok
        have hok2 : (Except.error () : Except Unit (Char → StatsRec)) =
            Except.ok st := hok
        exact Except.noConfusion hok2
      | some m2 =>
        cases hout : instOutcome m2 (dlookupD revMap (i.1.lem, i.1.tag.cat) [])
            i.2 i.1.tag.attrs i.1.inflection with
        | error e =>
          have hstep : evalStep revMap models st0 i = Except.error e := by
            unfold evalStep
            rw [if_pos hmem]
            simp only [hlook, hout]
          rw [hstep] at hok
          have hok2 : (Except.error e : Except Unit (Char → StatsRec)) =
              Except.ok st := hok
          exact Except.noConfusion hok2
        | ok out =>
          have hstep : evalStep revMap models st0 i = Except.ok (fun c2 =>
            if c2 = i.1.tag.cat then
              { n := (st0 i.1.tag.cat).n + 1
                rr := (st0 i.1.tag.cat).rr + 1 / ((out.1 : ℝ))
                correct := (st0 i.1.tag.cat).correct +
                  (if out.2.1 then 1 else 0)
                logprob := XFloat.add (st0 i.1.tag.cat).logprob out.2.2 }
            else st0 c2) := by
            unfold evalStep
            rw [if_pos hmem]
            simp only [hlook, hout]
          rw [hstep] at hok
          set st1 : Char → StatsRec := (fun c2 =>
            if c2 = i.1.tag.cat then
              { n := (st0 i.1.tag.cat).n + 1
                rr := (st0 i.1.tag.cat).rr + 1 / ((out.1 : ℝ))
                correct := (st0 i.1.tag.cat).correct +
                  (if out.2.1 then 1 else 0)
                logprob := XFloat.add (st0 i.1.tag.cat).logprob out.2.2 }
            else st0 c2) with hst1
          have hok2 : rest.foldlM (evalStep revMap models) st1 =
              Except.ok st := hok
          have ih2 := ih st1 hok2
          by_cases hcat : i.1.tag.cat = c
          · have hm2 : m2 = model := by
              rw [hcat] at hlook
              exact Option.some.inj (hlook.symm.trans hm)
            have houtD : instOutcomeD model revMap i = out := by
              unfold instOutcomeD
              rw [← hm2, hout]
              rfl
            have hK : keptInstances revMap c (i :: rest) =
                i :: keptInstances revMap c rest := by
              unfold keptInstances
              rw [List.filter_cons, if_pos (by
                simp only [hcat, beq_self_eq_true, Bool.true_and,
                  decide_eq_true_eq]
                exact hcat ▸ hmem)]
            have hn1 : (st1 c).n = (st0 c).n + 1 := by
              rw [hst1]
              simp only []
              rw [if_pos hcat.symm, hcat]
            have hr1 : (st1 c).rr = (st0 c).rr + 1 / ((out.1 : ℝ)) := by
              rw [hst1]
              simp only []
              rw [if_pos hcat.symm, hcat]
            have hc1 : (st1 c).correct = (st0 c).correct +
                (if out.2.1 then 1 else 0) := by
              rw [hst1]
              simp only []
              rw [if_pos hcat.symm, hcat]
            have hl1 : (st1 c).logprob =
                XFloat.add (st0 c).logprob out.2.2 := by
              rw [hst1]
              simp only []
              rw [if_pos hcat.symm, hcat]
            rw [hn1] at ih2
            rw [hr1] at ih2
            rw [hc1] at ih2
            rw [hl1] at ih2
            rw [hK]
            simp only [List.map_cons, List.sum_cons, List.countP_cons,
              List.length_cons, List.foldl_cons, houtD]
            refine ⟨?_, ?_, ?_, ?_⟩
            · rw [ih2.1]; omega
            · rw [ih2.2.1]; ring
            · rw [ih2.2.2.1]
              cases hb : out.2.1 <;> simp [hb] <;> omega
            · exact ih2.2.2.2
          · have hK : keptInstances revMap c (i :: rest) =
                keptInstances revMap c rest := by
              unfold keptInstances
              rw [List.filter_cons, if_neg (by simp [hcat])]
            have hst1c : st1 c = st0 c := by
              rw [hst1]
              simp only []
              rw [if_neg (fun hh => hcat hh.symm)]
            rw [hst1c] at ih2
            rw [hK]
            exact ih2
    · have hstep : evalStep revMap models st0 i = Except.ok st0 := by
        unfold evalStep
        rw [if_neg hmem]
      rw [hstep] at hok
      have hok2 : rest.foldlM (evalStep revMap models) st0 = Except.ok st := hok
      have hK : keptInstances revMap c (i :: rest) =
          keptInstances revMap c rest := by
        unfold keptInstances
        rw [List.filter_cons, if_neg (by simp [hmem])]
      rw [hK]
      exact ih st0 hok2

end EvaluatorLemmas

/-- Claim C8: a gold-missing instance is excluded from every aggregate
(only the kept instances of a category are counted), and over the kept
instances the evaluator's per-category row holds the instance count, the
sum of reciprocal gold ranks, the count of instances whose top-ranked
surface form equals the gold surface form (surface-form equality only),
and the IEEE sum of gold log-scores; the reported summary is then
MRR = that sum / count, accuracy = correct count / count, and
perplexity = exp of the negated mean gold log-probability. -/
theorem runEval_aggregates (revMap : RevMap) (models : List (Char × Model))
    (insts : List (Word × Feat)) (st : Char → StatsRec)
    (hok : runEval revMap models insts = Except.ok st)
    (c : Char) (model : Model) (hm : dlookup models c = some model) :
    (st c).n = (keptInstances revMap c insts).length ∧
    (st c).rr = ((keptInstances revMap c insts).map (fun wf =>
      1 / ((instOutcomeD model revMap wf).1 : ℝ))).sum ∧
    (st c).correct = ((keptInstances revMap c insts).map
      (fun wf => instOutcomeD model revMap wf)).countP (fun o => o.2.1) ∧
    (st c).logprob = ((keptInstances revMap c insts).map (fun wf =>
      (instOutcomeD model revMap wf).2.2)).foldl XFloat.add (XFloat.fin 0) ∧
    (keptInstances revMap c insts ≠ [] →
      reportCategory (st c) = some
        ((((keptInstances revMap c insts).map (fun wf =>
            1 / ((instOutcomeD model revMap wf).1 : ℝ))).sum /
          ((keptInstances revMap c insts).length : ℝ),
         ((((keptInstances revMap c insts).map
            (fun wf => instOutcomeD model revMap wf)).countP
              (fun o => o.2.1) : ℕ) : ℝ) /
          ((keptInstances revMap c insts).length : ℝ),
         XFloat.exp ((XFloat.neg (((keptInstances revMap c insts).map (fun wf =>
           (instOutcomeD model revMap wf).2.2)).foldl XFloat.add
             (XFloat.fin 0))).divNat (keptInstances revMap c insts).length)))) ∧
    (∀ t : ℝ, ((keptInstances revMap c insts).map (fun wf =>
        (instOutcomeD model revMap wf).2.2)).foldl XFloat.add (XFloat.fin 0) =
        XFloat.fin t →
      XFloat.exp ((XFloat.neg (((keptInstances revMap c insts).map (fun wf =>
        (instOutcomeD model revMap wf).2.2)).foldl XFloat.add
          (XFloat.fin 0))).divNat (keptInstances revMap c insts).length) =
        XFloat.fin (Real.exp
          (-(t / ((keptInstances revMap c insts).length : ℝ))))) := by
  have h4 := foldlM_evalStep_stats revMap models c model hm insts statsInit
    st hok
  obtain ⟨h1, h2, h3, hlp⟩ := h4
  have h1a : (st c).n = (keptInstances revMap c insts).length := by
    rw [h1]; simp [statsInit]
  have h2a : (st c).rr = ((keptInstances revMap c insts).map (fun wf =>
      1 / ((instOutcomeD model revMap wf).1 : ℝ))).sum := by
    rw [h2]; simp [statsInit]
  have h3a : (st c).correct = ((keptInstances revMap c insts).map
      (fun wf => instOutcomeD model revMap wf)).countP (fun o => o.2.1) := by
    rw [h3]; simp [statsInit]
  have hla : (st c).logprob = ((keptInstances revMap c insts).map (fun wf =>
      (instOutcomeD model revMap wf).2.2)).foldl XFloat.add (XFloat.fin 0) := by
    rw [hlp]
    rw [show (statsInit c).logprob = XFloat.fin 0 from rfl]
  refine ⟨h1a, h2a, h3a, hla, ?_, ?_⟩
  · intro hne
    have hnz : (st c).n ≠ 0 := by
      rw [h1a]
      exact fun h0 => hne (List.length_eq_zero.mp h0)
    unfold reportCategory
    rw [if_neg hnz, h1a, h2a, h3a, hla]
  · intro t ht
    rw [ht]
    rw [show XFloat.neg (XFloat.fin t) = XFloat.fin (-t) from rfl]
    rw [show (XFloat.fin (-t)).divNat (keptInstances revMap c insts).length =
      XFloat.fin ((-t) / ((keptInstances revMap c insts).length : ℝ)) from rfl]
    rw [show XFloat.exp (XFloat.fin ((-t) /
        ((keptInstances revMap c insts).length : ℝ))) =
      XFloat.fin (Real.exp ((-t) /
        ((keptInstances revMap c insts).length : ℝ))) from rfl]
    rw [neg_div]

/-- Witness for claim C8: one concrete evaluated instance (category N,
gold pair present, singleton candidate list) and the aggregates the run
produced for category N. -/
theorem runEval_aggregates_witness :
    runEval [(("d", 'N'), [("S", "c")])]
        [('N', Model.simple (SimpleModel.mk ["S"] (fun _ => [(0 : ℝ)])))]
        [(Word.mk "c" "d" (Tag.mk 'N' "S"), [])] =
      Except.ok ((runEval [(("d", 'N'), [("S", "c")])]
        [('N', Model.simple (SimpleModel.mk ["S"] (fun _ => [(0 : ℝ)])))]
        [(Word.mk "c" "d" (Tag.mk 'N' "S"), [])]).toOption.getD statsInit) ∧
    dlookup [('N', Model.simple (SimpleModel.mk ["S"] (fun _ => [(0 : ℝ)])))]
        'N' = some (Model.simple (SimpleModel.mk ["S"] (fun _ => [(0 : ℝ)]))) ∧
    ((((runEval [(("d", 'N'), [("S", "c")])]
        [('N', Model.simple (SimpleModel.mk ["S"] (fun _ => [(0 : ℝ)])))]
        [(Word.mk "c" "d" (Tag.mk 'N' "S"), [])]).toOption.getD statsInit)
          'N').n =
      (keptInstances [(("d", 'N'), [("S", "c")])] 'N'
        [(Word.mk "c" "d" (Tag.mk 'N' "S"), [])]).length) ∧
    ((((runEval [(("d", 'N'), [("S", "c")])]
        [('N', Model.simple (SimpleModel.mk ["S"] (fun _ => [(0 : ℝ)])))]
        [(Word.mk "c" "d" (Tag.mk 'N' "S"), [])]).toOption.getD statsInit)
          'N').rr =
      ((keptInstances [(("d", 'N'), [("S", "c")])] 'N'
        [(Word.mk "c" "d" (Tag.mk 'N' "S"), [])]).map (fun wf =>
          1 / ((instOutcomeD (Model.simple (SimpleModel.mk ["S"]
            (fun _ => [(0 : ℝ)]))) [(("d", 'N'), [("S", "c")])] wf).1 : ℝ))).sum) :=
  ⟨rfl, rfl,
    (runEval_aggregates [(("d", 'N'), [("S", "c")])]
      [('N', Model.simple (SimpleModel.mk ["S"] (fun _ => [(0 : ℝ)])))]
      [(Word.mk "c" "d" (Tag.mk 'N' "S"), [])] _ rfl 'N'
      (Model.simple (SimpleModel.mk ["S"] (fun _ => [(0 : ℝ)]))) rfl).1,
    (runEval_aggregates [(("d", 'N'), [("S", "c")])]
      [('N', Model.simple (SimpleModel.mk ["S"] (fun _ => [(0 : ℝ)])))]
      [(Word.mk "c" "d" (Tag.mk 'N' "S"), [])] _ rfl 'N'
      (Model.simple (SimpleModel.mk ["S"] (fun _ => [(0 : ℝ)]))) rfl).2.1⟩

end Morphogen
